import Mathlib

/-!
Verification of the Fimbul computation-graph manager: the synchronous
variant of `src/index.ts` and the asynchronous variant of `src/async.ts`.

The embedding is executable.  JavaScript result objects become
association lists whose slots distinguish a defined value (`some v`)
from an explicitly assigned `undefined` (`none`); an absent key has no
entry at all.  Node registries become lists with the most recently
defined node first (`define` refuses duplicate keys, so lookup is
unambiguous).  Recursion through the registry is bounded by an explicit
fuel argument: the source terminates because every registry reachable
through `define` is acyclic, and the theorems below supply enough fuel
for that case while the model reports a distinguished fuel error
otherwise.  Each resolution function also returns the list of node
identifiers whose user-supplied function was invoked, in invocation
order, so that at-most-once invocation claims can be stated by counting.

Promises of the async variant are modelled by their settled outcomes:
the engine is single-threaded and cooperative, every cache slot is
written exactly once during the synchronous prefix of the call that
creates it, and user functions are modelled as pure, so the settled
outcome of every stored promise is determined by the graph and the
inputs.  Thrown and rejected values are modelled as `Error` objects
carrying a message string.
-/

/-- Node identifiers are strings. -/
abbrev Key := String

/-- A JavaScript object used as a keyed store: an association list from
keys to slots of type `A`.  A key may be present or absent; presence
with `undefined` is represented inside `A` where needed. -/
abbrev JMap (A : Type) := List (Key × A)

/-- Property read `m[k]`, as far as presence goes: `some a` when the key
is an own property of the object. -/
def lookupJ {A : Type} (m : JMap A) (k : Key) : Option A :=
  (m.find? (fun e => e.1 == k)).map (fun e => e.2)

/-- Property write `m[k] = a`: replaces the slot of an existing key in
place (keeping property order), else appends the new key at the end. -/
def assignJ {A : Type} : JMap A → Key → A → JMap A
  | [], k, a => [(k, a)]
  | (k', a') :: rest, k, a =>
    if k' = k then (k, a) :: rest else (k', a') :: assignJ rest k a

/-- A results object of the synchronous engine: slots hold `some v` for
a defined value and `none` for an assigned `undefined`. -/
abbrev RMap (V : Type) := JMap (Option V)

/-- The test `m[k] !== undefined` of `src/index.ts`: yields the value
exactly when the key is present with a defined value. -/
def definedAt {V : Type} (m : RMap V) (k : Key) : Option V :=
  match lookupJ m k with
  | some (some v) => some v
  | _ => none

theorem lookupJ_nil {A : Type} (k : Key) : lookupJ ([] : JMap A) k = none := rfl

theorem lookupJ_cons {A : Type} (m : JMap A) (k' k : Key) (a : A) :
    lookupJ ((k', a) :: m) k = if k' = k then some a else lookupJ m k := by
  by_cases h : k' = k
  · simp only [lookupJ, if_pos h]
    rw [List.find?_cons_of_pos _ (by simpa using h)]
    rfl
  · simp only [lookupJ, if_neg h]
    rw [List.find?_cons_of_neg _ (by simpa using h)]

theorem assignJ_cons {A : Type} (m : JMap A) (k' k : Key) (a' a : A) :
    assignJ ((k', a') :: m) k a =
      if k' = k then (k, a) :: m else (k', a') :: assignJ m k a := rfl

theorem lookupJ_assignJ_self {A : Type} (m : JMap A) (k : Key) (a : A) :
    lookupJ (assignJ m k a) k = some a := by
  induction m with
  | nil =>
    rw [show assignJ ([] : JMap A) k a = [(k, a)] from rfl, lookupJ_cons, if_pos rfl]
  | cons e rest ih =>
    cases e with
    | mk ek ea =>
      by_cases h : ek = k
      · rw [assignJ_cons, if_pos h, lookupJ_cons, if_pos rfl]
      · rw [assignJ_cons, if_neg h, lookupJ_cons, if_neg h]
        exact ih

theorem lookupJ_assignJ_ne {A : Type} (m : JMap A) {j k : Key} (h : j ≠ k) (a : A) :
    lookupJ (assignJ m k a) j = lookupJ m j := by
  induction m with
  | nil => simp [assignJ, lookupJ_cons, Ne.symm h]
  | cons e rest ih =>
    cases e with
    | mk ek ea =>
      by_cases he : ek = k
      · simp [assignJ_cons, he, lookupJ_cons, Ne.symm h]
      · simp [assignJ_cons, he, lookupJ_cons, ih]

theorem definedAt_assignJ {V : Type} (m : RMap V) (j k : Key) (v : Option V) :
    definedAt (assignJ m k v) j = if j = k then v else definedAt m j := by
  by_cases h : j = k
  · subst h
    simp only [definedAt, lookupJ_assignJ_self, if_pos rfl]
    cases v <;> rfl
  · simp [definedAt, lookupJ_assignJ_ne m h, h]

/-! ## Dependency skeletons

Both registries share the same registration discipline, so acyclicity
and rank reasoning is done once over the skeleton of a registry: the
keys with their declared dependency lists, most recently defined first. -/

abbrev DepSpec := List (Key × List Key)

/-- Declared dependency list of a registered key. -/
def lookupDeps (s : DepSpec) (k : Key) : Option (List Key) :=
  lookupJ s k

/-- Registration rank: how many nodes were registered strictly before
the key (an arbitrary value for unregistered keys). -/
def rankOf : DepSpec → Key → Nat
  | [], _ => 0
  | (k, _) :: rest, j => if j = k then rest.length else rankOf rest j

theorem lookupDeps_cons (s : DepSpec) (k' k : Key) (ds : List Key) :
    lookupDeps ((k', ds) :: s) k = if k' = k then some ds else lookupDeps s k :=
  lookupJ_cons s k' k ds

theorem rankOf_cons (s : DepSpec) (k' j : Key) (ds : List Key) :
    rankOf ((k', ds) :: s) j = if j = k' then s.length else rankOf s j := rfl

/-- The registries reachable through `define`: every declared dependency
of a node is registered strictly earlier, and keys are never duplicated. -/
inductive WFSpec : DepSpec → Prop
  | nil : WFSpec []
  | cons {s : DepSpec} {k : Key} {ds : List Key} :
      WFSpec s → lookupDeps s k = none →
      (∀ d ∈ ds, (lookupDeps s d).isSome) → WFSpec ((k, ds) :: s)

theorem rankOf_lt_length {s : DepSpec} {k : Key} (h : (lookupDeps s k).isSome) :
    rankOf s k < s.length := by
  induction s with
  | nil => simp [lookupDeps, lookupJ] at h
  | cons e rest ih =>
    cases e with
    | mk ek eds =>
      by_cases hk : k = ek
      · simp [rankOf_cons, hk, Nat.lt_succ_self]
      · have h' : (lookupDeps rest k).isSome := by
          rw [lookupDeps_cons, if_neg (Ne.symm hk)] at h
          exact h
        rw [rankOf_cons, if_neg hk]
        exact Nat.lt_succ_of_lt (ih h')

theorem WFSpec.dep_lt {s : DepSpec} (w : WFSpec s) :
    ∀ {k d : Key} {ds : List Key}, lookupDeps s k = some ds → d ∈ ds →
      (lookupDeps s d).isSome ∧ rankOf s d < rankOf s k := by
  induction w with
  | nil => intro k d ds hk _; simp [lookupDeps, lookupJ] at hk
  | @cons s' k₀ ds₀ w' hnew hdeps ih =>
    intro k d ds hk hd
    by_cases hkk : k₀ = k
    · rw [lookupDeps_cons, if_pos hkk] at hk
      have hds : ds₀ = ds := by injection hk
      subst hds
      have hdsome : (lookupDeps s' d).isSome := hdeps d hd
      have hdne : k₀ ≠ d := by
        intro he
        rw [← he, hnew] at hdsome
        simp at hdsome
      refine ⟨by rw [lookupDeps_cons, if_neg hdne]; exact hdsome, ?_⟩
      rw [rankOf_cons, if_neg (fun h => hdne h.symm), rankOf_cons, if_pos hkk.symm]
      exact rankOf_lt_length hdsome
    · rw [lookupDeps_cons, if_neg hkk] at hk
      obtain ⟨hdsome, hrank⟩ := ih hk hd
      have hdne : k₀ ≠ d := by
        intro he
        rw [← he, hnew] at hdsome
        simp at hdsome
      refine ⟨by rw [lookupDeps_cons, if_neg hdne]; exact hdsome, ?_⟩
      rw [rankOf_cons, if_neg (fun h => hdne h.symm), rankOf_cons,
        if_neg (fun h => hkk h.symm)]
      exact hrank

/-- Edge of the dependency graph: from a declared dependency to its
dependent. -/
def specEdge (s : DepSpec) (a b : Key) : Prop :=
  ∃ ds, lookupDeps s b = some ds ∧ a ∈ ds

/-- No key reaches itself through dependency edges. -/
def AcyclicSpec (s : DepSpec) : Prop :=
  ∀ k, ¬ Relation.TransGen (specEdge s) k k

theorem WFSpec.rank_lt_of_edge {s : DepSpec} (w : WFSpec s) {a b : Key}
    (e : specEdge s a b) : rankOf s a < rankOf s b := by
  obtain ⟨ds, hb, ha⟩ := e
  exact (w.dep_lt hb ha).2

theorem WFSpec.acyclic {s : DepSpec} (w : WFSpec s) : AcyclicSpec s := by
  intro k h
  have mono : ∀ a b, Relation.TransGen (specEdge s) a b → rankOf s a < rankOf s b := by
    intro a b hab
    induction hab with
    | single e => exact w.rank_lt_of_edge e
    | tail _ e ih => exact ih.trans (w.rank_lt_of_edge e)
  exact absurd (mono k k h) (lt_irrefl _)

/-! ## The synchronous registry and engine (`src/index.ts`) -/

/-- Definition-time errors of `define`, for both variants:
`duplicate key` models `"<key>" already defined` (sync) and
`Key "<key>" already exists!` (async); `depNotFound d` models
`"<d>" not found` (sync) and `Key "<d>" not found!` (async). -/
inductive DefErr where
  | duplicate (key : Key)
  | depNotFound (key : Key)
deriving DecidableEq

/-- Resolution-time errors of the synchronous engine: `notFound key`
models the thrown `"<key>" not found`; `noFuel` is the model's artifact
for running out of fuel (unreachable with enough fuel on the registries
`define` can build). -/
inductive SErr where
  | notFound (key : Key)
  | noFuel
deriving DecidableEq

/-- A stored node of the synchronous registry: `define` stores the user
function as-is when no dependency array is supplied, and
`provideDependencies fn deps` otherwise.  The wrapped shape keeps the
user function and the declared list so resolution can mirror the
wrapper's behaviour. -/
inductive SNode (P V : Type) where
  | plain (fn : P → RMap V → Option V)
  | withDeps (fn : P → RMap V → Option V) (deps : List Key)

/-- The synchronous registry, most recently defined node first. -/
abbrev SGraph (P V : Type) := List (Key × SNode P V)

def lookupNode {P V : Type} (g : SGraph P V) (k : Key) : Option (SNode P V) :=
  lookupJ g k

def sDepsOf {P V : Type} : SNode P V → List Key
  | .plain _ => []
  | .withDeps _ ds => ds

def sFnOf {P V : Type} : SNode P V → P → RMap V → Option V
  | .plain fn => fn
  | .withDeps fn _ => fn

/-- Dependency skeleton of a synchronous registry. -/
def specOfS {P V : Type} (g : SGraph P V) : DepSpec :=
  g.map (fun e => (e.1, sDepsOf e.2))

/-- First key of the list failing the presence test, mirroring the
`for` loop of `define` which throws at the first absent dependency. -/
def firstMissing (present : Key → Bool) : List Key → Option Key
  | [] => none
  | d :: ds => if present d then firstMissing present ds else some d

/-- First declared dependency missing from the synchronous registry. -/
def firstMissingS {P V : Type} (g : SGraph P V) (ds : List Key) : Option Key :=
  firstMissing (fun d => (lookupNode g d).isSome) ds

namespace Fimbul

/-- `define(key, fn, dependencies?)` of `src/index.ts`.  Returns the
updated registry together with the error thrown, if any; a throwing
call leaves the registry untouched, which the model renders by
returning the input registry in the error cases. -/
def define {P V : Type} (g : SGraph P V) (key : Key) (fn : P → RMap V → Option V)
    (dependencies : Option (List Key)) : SGraph P V × Option DefErr :=
  if (lookupNode g key).isSome then (g, some (.duplicate key))
  else
    match dependencies with
    | none => ((key, .plain fn) :: g, none)
    | some ds =>
      match firstMissingS g ds with
      | some d => (g, some (.depNotFound d))
      | none => ((key, .withDeps fn ds) :: g, none)

/-- `has(key)`. -/
def has {P V : Type} (g : SGraph P V) (key : Key) : Bool :=
  (lookupNode g key).isSome

/-- Outcome of one synchronous `get`: the returned value (or thrown
error), the results object after the call, and the identifiers whose
user function was invoked, in invocation order. -/
structure SStep (V : Type) where
  res : Except SErr (Option V)
  cache : RMap V
  calls : List Key

/-- Outcome of one synchronous `getMany`: the source returns the very
results object it mutated, so the map returned to the caller is the
`cache` field. -/
structure MStep (V : Type) where
  res : Except SErr Unit
  cache : RMap V
  calls : List Key

/-- The `reduce` of `getMany`: for each key in order, run `get` on the
shared results object and assign the returned value back at the key
(`acc[key] = get(key, params, results)` with `acc === results`); a
thrown error aborts the fold but keeps the mutations made so far. -/
def getManyAux {V : Type} (sg : Key → RMap V → SStep V) :
    List Key → RMap V → MStep V
  | [], c => ⟨.ok (), c, []⟩
  | k :: ks, c =>
    match sg k c with
    | ⟨.error e, c', tr⟩ => ⟨.error e, c', tr⟩
    | ⟨.ok v, c', tr⟩ =>
      let step := getManyAux sg ks (assignJ c' k v)
      ⟨step.res, step.cache, tr ++ step.calls⟩

/-- `get(key, params, results)` of `src/index.ts`: return the cached
value if the slot is defined; otherwise look the node up (throwing
`"<key>" not found` when absent) and invoke its stored function — the
user function directly on the shared results object for a plain node,
or, for a wrapped node, first `getMany` over the declared dependencies
and then the user function on the results object `getMany` returns —
finally assigning the returned value at the key. -/
def get {P V : Type} : Nat → SGraph P V → Key → P → RMap V → SStep V
  | fuel + 1, g, key, p, c =>
    match definedAt c key with
    | some v => ⟨.ok (some v), c, []⟩
    | none =>
      match lookupNode g key with
      | none => ⟨.error (.notFound key), c, []⟩
      | some (.plain fn) => ⟨.ok (fn p c), assignJ c key (fn p c), [key]⟩
      | some (.withDeps fn deps) =>
        match getManyAux (fun k c => get fuel g k p c) deps c with
        | ⟨.error e, c', tr⟩ => ⟨.error e, c', tr⟩
        | ⟨.ok _, c', tr⟩ =>
          ⟨.ok (fn p c'), assignJ c' key (fn p c'), tr ++ [key]⟩
  | 0, _, key, _, c =>
    match definedAt c key with
    | some v => ⟨.ok (some v), c, []⟩
    | none => ⟨.error .noFuel, c, []⟩

/-- `getMany(keys, params, results)` of `src/index.ts`. -/
def getMany {P V : Type} (fuel : Nat) (g : SGraph P V) (keys : List Key)
    (p : P) (c : RMap V) : MStep V :=
  getManyAux (fun k c => get fuel g k p c) keys c

end Fimbul

/-- A registry built by a sequence of `define` calls starting from the
empty registry; a call that throws leaves the registry unchanged. -/
def buildS {P V : Type}
    (calls : List (Key × (P → RMap V → Option V) × Option (List Key))) : SGraph P V :=
  calls.foldl (fun g c => (Fimbul.define g c.1 c.2.1 c.2.2).1) []

/-! ## The asynchronous registry and engine (`src/async.ts`) -/

/-- A stored node of the asynchronous registry: `define` always stores
`provideDependencies(fn, dependencies ?? [])`, so every node keeps its
user function and a (possibly empty) dependency list. -/
structure ANode (P V : Type) where
  fn : P → RMap V → Except String (Option V)
  deps : List Key

/-- The asynchronous registry, most recently defined node first. -/
abbrev AGraph (P V : Type) := List (Key × ANode P V)

def lookupANode {P V : Type} (g : AGraph P V) (k : Key) : Option (ANode P V) :=
  lookupJ g k

/-- Dependency skeleton of an asynchronous registry. -/
def specOfA {P V : Type} (g : AGraph P V) : DepSpec :=
  g.map (fun e => (e.1, e.2.deps))

/-- First declared dependency missing from the asynchronous registry. -/
def firstMissingA {P V : Type} (g : AGraph P V) (ds : List Key) : Option Key :=
  firstMissing (fun d => (lookupANode g d).isSome) ds

/-- The promise cache of the asynchronous engine: slots hold the settled
outcome of the stored promise — a resolution value (possibly
`undefined`) or a rejection, modelled as the message of the rejected
`Error`. -/
abbrev PMap (V : Type) := JMap (Except String (Option V))

namespace FimbulAsync

/-- Message of the error thrown for an unregistered key. -/
def aNotFound (key : Key) : String := "Key \"" ++ key ++ "\" not found!"

/-- Model artifact: the rejection reported when the model runs out of
fuel (unreachable with enough fuel on registries `define` can build). -/
def aFuelMsg : String := "model ran out of fuel"

/-- JavaScript string conversion of an `Error` with the given message. -/
def errString (m : String) : String :=
  if m = "" then "Error" else "Error: " ++ m

/-- The message of the wrapping error built by the `.catch` inside
`resolveDependencies`:
`Failed to resolve dependencies for key "<key>": ${error}`. -/
def wrapFail (key : Key) (m : String) : String :=
  "Failed to resolve dependencies for key \"" ++ key ++ "\": " ++ errString m

/-- `resultsToPromises`: `Object.fromEntries` over `Object.entries` of
the caller's results object, wrapping each present slot — including
slots holding `undefined` — in `Promise.resolve`.  This builds a fresh
object; the caller's object is never written afterwards. -/
def resultsToPromises {V : Type} (c : RMap V) : PMap V :=
  c.map (fun e => (e.1, .ok e.2))

/-- Outcome of one `resolveComputation`: the settled outcome of the
returned promise, the promise cache afterwards, and the identifiers
whose user function was invoked. -/
structure AStep (V : Type) where
  out : Except String (Option V)
  pcache : PMap V
  calls : List Key

/-- Outcome of one `resolveDependencies`: on success, the
`Object.fromEntries` map holding exactly the requested keys with their
resolved values. -/
structure DStep (V : Type) where
  out : Except String (RMap V)
  pcache : PMap V
  calls : List Key

/-- One key's closure inside the `keys.map` of `resolveDependencies`:
if the slot is empty (`!results[key]`), start the computation and store
the in-flight promise — with the `.catch` that rewraps a rejection into
`Failed to resolve dependencies for key "<key>": ${error}` — at the
slot; then await the stored promise. -/
def depSlot {V : Type} (arc : Key → PMap V → AStep V) (k : Key) (pm : PMap V) : AStep V :=
  match lookupJ pm k with
  | some out => ⟨out, pm, []⟩
  | none =>
    let s := arc k pm
    let w : Except String (Option V) :=
      match s.out with
      | .error e => .error (wrapFail k e)
      | .ok v => .ok v
    ⟨w, assignJ s.pcache k w, s.calls⟩

/-- `resolveDependencies(keys, input, results)`: run every key's slot
closure and await all of them (`Promise.all`).  All requested keys are
started even when an earlier one fails, since `Promise.all` does not
cancel; the model settles them left to right and reports the first
failure in key order, which matches the single-threaded engine because
every slot is written during the synchronous prefix of the call that
creates it.  On success the returned map holds exactly the requested
keys. -/
def resolveDependencies {V : Type} (arc : Key → PMap V → AStep V) :
    List Key → PMap V → DStep V
  | [], pm => ⟨.ok [], pm, []⟩
  | k :: ks, pm =>
    let head := depSlot arc k pm
    let rest := resolveDependencies arc ks head.pcache
    match head.out, rest.out with
    | .error e, _ => ⟨.error e, rest.pcache, head.calls ++ rest.calls⟩
    | .ok _, .error e => ⟨.error e, rest.pcache, head.calls ++ rest.calls⟩
    | .ok v, .ok vs => ⟨.ok ((k, v) :: vs), rest.pcache, head.calls ++ rest.calls⟩

/-- `resolveComputation(key, input, results)`: return the stored
(in-flight or settled) promise when the slot is occupied; otherwise
look the node up (rejecting with `Key "<key>" not found!` when absent)
and invoke the stored wrapper: resolve the declared dependencies into a
value map, call the user function on it, and store the wrapper's
promise at the slot — the store happens before any suspension point, so
the slot is occupied for every later requester even if the promise
later rejects. -/
def resolveComputation {P V : Type} : Nat → AGraph P V → Key → P → PMap V → AStep V
  | fuel + 1, g, key, p, pm =>
    match lookupJ pm key with
    | some out => ⟨out, pm, []⟩
    | none =>
      match lookupANode g key with
      | none => ⟨.error (aNotFound key), pm, []⟩
      | some nd =>
        let d := resolveDependencies (fun k pm => resolveComputation fuel g k p pm) nd.deps pm
        match d.out with
        | .error e => ⟨.error e, assignJ d.pcache key (.error e), d.calls⟩
        | .ok dm => ⟨nd.fn p dm, assignJ d.pcache key (nd.fn p dm), d.calls ++ [key]⟩
  | 0, _, key, _, pm =>
    match lookupJ pm key with
    | some out => ⟨out, pm, []⟩
    | none => ⟨.error aFuelMsg, pm, []⟩

/-- Outcome of one async `get`, seen by the caller: the settled outcome
of the returned promise, the caller's results object after the call,
and the invoked identifiers.  All writes of the engine target the fresh
promise map built by `resultsToPromises`, so the caller's object after
the call is the unchanged input. -/
structure GetStep (V : Type) where
  out : Except String (Option V)
  callerCache : RMap V
  calls : List Key

/-- `get(key, input, results)` of `src/async.ts`: answer from the
caller's object when the slot is defined, otherwise resolve against the
fresh promise map built from it. -/
def get {P V : Type} (fuel : Nat) (g : AGraph P V) (key : Key) (p : P)
    (results : RMap V) : GetStep V :=
  match definedAt results key with
  | some v => ⟨.ok (some v), results, []⟩
  | none =>
    let s := resolveComputation fuel g key p (resultsToPromises results)
    ⟨s.out, results, s.calls⟩

/-- Outcome of one async `getMany`, seen by the caller: on success, a
fresh map holding exactly the requested keys. -/
structure GetManyStep (V : Type) where
  out : Except String (RMap V)
  callerCache : RMap V
  calls : List Key

/-- `getMany(keys, input, results)` of `src/async.ts`. -/
def getMany {P V : Type} (fuel : Nat) (g : AGraph P V) (keys : List Key)
    (p : P) (results : RMap V) : GetManyStep V :=
  let d := resolveDependencies (fun k pm => resolveComputation fuel g k p pm)
    keys (resultsToPromises results)
  ⟨d.out, results, d.calls⟩

/-- `define(key, fn, dependencies?)` of `src/async.ts`: same validation
as the synchronous variant (the dependency-existence loop runs only
when a dependency array is supplied), and the stored node always keeps
`dependencies ?? []`. -/
def define {P V : Type} (g : AGraph P V) (key : Key)
    (fn : P → RMap V → Except String (Option V))
    (dependencies : Option (List Key)) : AGraph P V × Option DefErr :=
  if (lookupANode g key).isSome then (g, some (.duplicate key))
  else
    match dependencies with
    | none => ((key, ⟨fn, []⟩) :: g, none)
    | some ds =>
      match firstMissingA g ds with
      | some d => (g, some (.depNotFound d))
      | none => ((key, ⟨fn, ds⟩) :: g, none)

/-- `has(key)`. -/
def has {P V : Type} (g : AGraph P V) (key : Key) : Bool :=
  (lookupANode g key).isSome

end FimbulAsync

/-- An asynchronous registry built by a sequence of `define` calls
starting from the empty registry. -/
def buildA {P V : Type}
    (calls : List (Key × (P → RMap V → Except String (Option V)) × Option (List Key))) :
    AGraph P V :=
  calls.foldl (fun g c => (FimbulAsync.define g c.1 c.2.1 c.2.2).1) []

/-! ## Basic lookup and registration lemmas -/

theorem lookupJ_mem {A : Type} {m : JMap A} {k : Key} {a : A}
    (h : lookupJ m k = some a) : (k, a) ∈ m := by
  induction m with
  | nil => simp [lookupJ] at h
  | cons e rest ih =>
    cases e with
    | mk ek ea =>
      rw [lookupJ_cons] at h
      by_cases he : ek = k
      · rw [if_pos he] at h
        injection h with h2
        subst he
        subst h2
        exact List.mem_cons_self _ _
      · rw [if_neg he] at h
        exact List.mem_cons_of_mem _ (ih h)

theorem lookupNode_cons {P V : Type} (g : SGraph P V) (k' k : Key) (n : SNode P V) :
    lookupNode ((k', n) :: g) k = if k' = k then some n else lookupNode g k :=
  lookupJ_cons g k' k n

theorem lookupANode_cons {P V : Type} (g : AGraph P V) (k' k : Key) (n : ANode P V) :
    lookupANode ((k', n) :: g) k = if k' = k then some n else lookupANode g k :=
  lookupJ_cons g k' k n

theorem specOfS_lookup {P V : Type} (g : SGraph P V) (k : Key) :
    lookupDeps (specOfS g) k = (lookupNode g k).map sDepsOf := by
  induction g with
  | nil => rfl
  | cons e rest ih =>
    cases e with
    | mk ek en =>
      show lookupDeps ((ek, sDepsOf en) :: specOfS rest) k = _
      rw [lookupDeps_cons, lookupNode_cons]
      by_cases he : ek = k
      · simp [he]
      · simp [he, ih]

theorem specOfA_lookup {P V : Type} (g : AGraph P V) (k : Key) :
    lookupDeps (specOfA g) k = (lookupANode g k).map ANode.deps := by
  induction g with
  | nil => rfl
  | cons e rest ih =>
    cases e with
    | mk ek en =>
      show lookupDeps ((ek, en.deps) :: specOfA rest) k = _
      rw [lookupDeps_cons, lookupANode_cons]
      by_cases he : ek = k
      · simp [he]
      · simp [he, ih]

theorem firstMissing_eq_none {present : Key → Bool} :
    ∀ {ds : List Key}, firstMissing present ds = none → ∀ d ∈ ds, present d = true := by
  intro ds
  induction ds with
  | nil => intro _ d hd; simp at hd
  | cons d₀ ds ih =>
    intro h d hd
    by_cases hp : present d₀
    · rw [show firstMissing present (d₀ :: ds) =
        if present d₀ then firstMissing present ds else some d₀ from rfl, if_pos hp] at h
      rcases List.mem_cons.mp hd with rfl | hd'
      · exact hp
      · exact ih h d hd'
    · rw [show firstMissing present (d₀ :: ds) =
        if present d₀ then firstMissing present ds else some d₀ from rfl, if_neg hp] at h
      simp at h

theorem firstMissing_eq_some {present : Key → Bool} :
    ∀ {ds : List Key} {d : Key}, firstMissing present ds = some d →
      d ∈ ds ∧ present d = false := by
  intro ds
  induction ds with
  | nil => intro d h; simp [firstMissing] at h
  | cons d₀ ds ih =>
    intro d h
    by_cases hp : present d₀
    · rw [show firstMissing present (d₀ :: ds) =
        if present d₀ then firstMissing present ds else some d₀ from rfl, if_pos hp] at h
      obtain ⟨h1, h2⟩ := ih h
      exact ⟨List.mem_cons_of_mem _ h1, h2⟩
    · rw [show firstMissing present (d₀ :: ds) =
        if present d₀ then firstMissing present ds else some d₀ from rfl, if_neg hp] at h
      injection h with h2
      subst h2
      exact ⟨List.mem_cons_self _ _, by simpa using hp⟩

theorem firstMissing_isSome_of {present : Key → Bool} :
    ∀ {ds : List Key} {d : Key}, d ∈ ds → present d = false →
      (firstMissing present ds).isSome := by
  intro ds
  induction ds with
  | nil => intro d h; simp at h
  | cons d₀ ds ih =>
    intro d hd hp
    by_cases hp₀ : present d₀
    · rw [show firstMissing present (d₀ :: ds) =
        if present d₀ then firstMissing present ds else some d₀ from rfl, if_pos hp₀]
      rcases List.mem_cons.mp hd with rfl | hd'
      · rw [hp] at hp₀; simp at hp₀
      · exact ih hd' hp
    · rw [show firstMissing present (d₀ :: ds) =
        if present d₀ then firstMissing present ds else some d₀ from rfl, if_neg hp₀]
      rfl

/-- A synchronous registry reachable through `define`. -/
def WFS {P V : Type} (g : SGraph P V) : Prop := WFSpec (specOfS g)

/-- An asynchronous registry reachable through `define`. -/
def WFA {P V : Type} (g : AGraph P V) : Prop := WFSpec (specOfA g)

theorem WFS_define_wf {P V : Type} {g : SGraph P V} (w : WFS g) (key : Key)
    (fn : P → RMap V → Option V) (deps? : Option (List Key)) :
    WFS (Fimbul.define g key fn deps?).1 := by
  unfold Fimbul.define
  by_cases hk : (lookupNode g key).isSome
  · simp only [if_pos hk]
    exact w
  · have hk' : lookupNode g key = none := Option.not_isSome_iff_eq_none.mp hk
    have hkd : lookupDeps (specOfS g) key = none := by
      rw [specOfS_lookup, hk']; rfl
    cases deps? with
    | none =>
      simp only [if_neg hk]
      exact WFSpec.cons w hkd (by intro d hd; simp [sDepsOf] at hd)
    | some ds =>
      cases hm : firstMissingS g ds with
      | some d => simp only [if_neg hk, hm]; exact w
      | none =>
        simp only [if_neg hk, hm]
        refine WFSpec.cons w hkd ?_
        intro d hd
        have hpres := firstMissing_eq_none hm d hd
        change (lookupDeps (specOfS g) d).isSome = true
        rw [specOfS_lookup]
        rcases h2 : lookupNode g d with _ | n
        · rw [h2] at hpres; simp at hpres
        · rfl

theorem WFA_define_wf {P V : Type} {g : AGraph P V} (w : WFA g) (key : Key)
    (fn : P → RMap V → Except String (Option V)) (deps? : Option (List Key)) :
    WFA (FimbulAsync.define g key fn deps?).1 := by
  unfold FimbulAsync.define
  by_cases hk : (lookupANode g key).isSome
  · simp only [if_pos hk]
    exact w
  · have hk' : lookupANode g key = none := Option.not_isSome_iff_eq_none.mp hk
    have hkd : lookupDeps (specOfA g) key = none := by
      rw [specOfA_lookup, hk']; rfl
    cases deps? with
    | none =>
      simp only [if_neg hk]
      exact WFSpec.cons w hkd (by intro d hd; simp at hd)
    | some ds =>
      cases hm : firstMissingA g ds with
      | some d => simp only [if_neg hk, hm]; exact w
      | none =>
        simp only [if_neg hk, hm]
        refine WFSpec.cons w hkd ?_
        intro d hd
        have hpres := firstMissing_eq_none hm d hd
        change (lookupDeps (specOfA g) d).isSome = true
        rw [specOfA_lookup]
        rcases h2 : lookupANode g d with _ | n
        · rw [h2] at hpres; simp at hpres
        · rfl

theorem WFS_buildS {P V : Type}
    (calls : List (Key × (P → RMap V → Option V) × Option (List Key))) :
    WFS (buildS calls) := by
  suffices h : ∀ g : SGraph P V, WFS g →
      WFS (calls.foldl (fun g c => (Fimbul.define g c.1 c.2.1 c.2.2).1) g) from
    h [] WFSpec.nil
  induction calls with
  | nil => intro g w; exact w
  | cons c cs ih =>
    intro g w
    exact ih _ (WFS_define_wf w c.1 c.2.1 c.2.2)

theorem WFA_buildA {P V : Type}
    (calls : List (Key × (P → RMap V → Except String (Option V)) × Option (List Key))) :
    WFA (buildA calls) := by
  suffices h : ∀ g : AGraph P V, WFA g →
      WFA (calls.foldl (fun g c => (FimbulAsync.define g c.1 c.2.1 c.2.2).1) g) from
    h [] WFSpec.nil
  induction calls with
  | nil => intro g w; exact w
  | cons c cs ih =>
    intro g w
    exact ih _ (WFA_define_wf w c.1 c.2.1 c.2.2)

/-- Every user function of the registry returns a defined value on every
input — the regime in which the at-most-once caching contract of the
synchronous engine holds (a node computing `undefined` is never treated
as cached; see the C10 theorem). -/
def TotalFns {P V : Type} (g : SGraph P V) : Prop :=
  ∀ e ∈ g, ∀ (p : P) (c : RMap V), (sFnOf e.2 p c).isSome

/-! ## Behaviour of the synchronous engine -/

namespace Fimbul

variable {P V : Type}

theorem get_hit {g : SGraph P V} {c : RMap V} {key : Key} {v : V}
    (h : definedAt c key = some v) (fuel : Nat) (p : P) :
    get fuel g key p c = ⟨.ok (some v), c, []⟩ := by
  cases fuel <;> simp [get, h]

theorem get_notFound {g : SGraph P V} {c : RMap V} {key : Key}
    (h : definedAt c key = none) (hl : lookupNode g key = none) (fuel : Nat) (p : P) :
    get (fuel + 1) g key p c = ⟨.error (.notFound key), c, []⟩ := by
  simp [get, h, hl]

theorem get_plain {g : SGraph P V} {c : RMap V} {key : Key} {fn : P → RMap V → Option V}
    (h : definedAt c key = none) (hl : lookupNode g key = some (.plain fn)) (fuel : Nat) (p : P) :
    get (fuel + 1) g key p c = ⟨.ok (fn p c), assignJ c key (fn p c), [key]⟩ := by
  simp [get, h, hl]

theorem get_withDeps_err {g : SGraph P V} {c c' : RMap V} {key : Key}
    {fn : P → RMap V → Option V} {ds : List Key} {e : SErr} {tr : List Key} {fuel : Nat} {p : P}
    (h : definedAt c key = none) (hl : lookupNode g key = some (.withDeps fn ds))
    (hm : getManyAux (fun k c => get fuel g k p c) ds c = ⟨.error e, c', tr⟩) :
    get (fuel + 1) g key p c = ⟨.error e, c', tr⟩ := by
  simp [get, h, hl, hm]

theorem get_withDeps_ok {g : SGraph P V} {c c' : RMap V} {key : Key}
    {fn : P → RMap V → Option V} {ds : List Key} {u : Unit} {tr : List Key} {fuel : Nat} {p : P}
    (h : definedAt c key = none) (hl : lookupNode g key = some (.withDeps fn ds))
    (hm : getManyAux (fun k c => get fuel g k p c) ds c = ⟨.ok u, c', tr⟩) :
    get (fuel + 1) g key p c = ⟨.ok (fn p c'), assignJ c' key (fn p c'), tr ++ [key]⟩ := by
  simp [get, h, hl, hm]

theorem getManyAux_cons_err {sg : Key → RMap V → SStep V} {k : Key} {ks : List Key}
    {c c' : RMap V} {e : SErr} {tr : List Key} (hs : sg k c = ⟨.error e, c', tr⟩) :
    getManyAux sg (k :: ks) c = ⟨.error e, c', tr⟩ := by
  simp [getManyAux, hs]

theorem getManyAux_cons_ok {sg : Key → RMap V → SStep V} {k : Key} {ks : List Key}
    {c c' : RMap V} {v : Option V} {tr : List Key} (hs : sg k c = ⟨.ok v, c', tr⟩) :
    getManyAux sg (k :: ks) c =
      ⟨(getManyAux sg ks (assignJ c' k v)).res, (getManyAux sg ks (assignJ c' k v)).cache,
        tr ++ (getManyAux sg ks (assignJ c' k v)).calls⟩ := by
  simp [getManyAux, hs]

/-- Behavioural invariants of one resolution step, instantiated below by
`fun k c => get fuel g k p c` for every fuel, assuming `WFS g` and
`TotalFns g`: cache hits echo the cache without invoking anything;
defined slots keep their value; an invoked identifier was undefined
before the call, is defined after it, is invoked at most once, is
registered, and has rank at most the requested key's; identifiers that
become defined were invoked; a returned value is the requested key's
slot; and the declared dependencies of every invoked identifier are
defined afterwards. -/
structure StepProps (g : SGraph P V) (sg : Key → RMap V → SStep V) : Prop where
  hit : ∀ k c v, definedAt c k = some v → sg k c = ⟨.ok (some v), c, []⟩
  preserve : ∀ k c j v, definedAt c j = some v → definedAt (sg k c).cache j = some v
  callsUndef : ∀ k c j, j ∈ (sg k c).calls → definedAt c j = none
  callsSome : ∀ k c j, j ∈ (sg k c).calls → (definedAt (sg k c).cache j).isSome
  callsOnce : ∀ k c j, ((sg k c).calls).count j ≤ 1
  newCalled : ∀ k c j, definedAt c j = none → (definedAt (sg k c).cache j).isSome →
    j ∈ (sg k c).calls
  okSome : ∀ k c v, (sg k c).res = .ok v → v.isSome
  okSlot : ∀ k c v, (sg k c).res = .ok v → definedAt (sg k c).cache k = v
  callsReg : ∀ k c j, j ∈ (sg k c).calls →
    (lookupDeps (specOfS g) j).isSome ∧ rankOf (specOfS g) j ≤ rankOf (specOfS g) k
  callsDeps : ∀ k c j, j ∈ (sg k c).calls → ∀ n, lookupNode g j = some n →
    ∀ d ∈ sDepsOf n, (definedAt (sg k c).cache d).isSome

theorem StepProps.assign_preserve {g : SGraph P V} {sg : Key → RMap V → SStep V}
    (hp : StepProps g sg) {k : Key} {c c' : RMap V} {v₀ : Option V} {tr : List Key}
    (hs : sg k c = ⟨.ok v₀, c', tr⟩) {j : Key} {v : V} (hj : definedAt c j = some v) :
    definedAt (assignJ c' k v₀) j = some v := by
  by_cases hjk : j = k
  · subst hjk
    have hh := hp.hit j c v hj
    rw [hh] at hs
    injection hs with h1 h2 h3
    injection h1 with h1
    rw [definedAt_assignJ, if_pos rfl, ← h1]
  · rw [definedAt_assignJ, if_neg hjk]
    have h2 := hp.preserve k c j v hj
    rw [hs] at h2
    exact h2

theorem StepProps.many_preserve {g : SGraph P V} {sg : Key → RMap V → SStep V}
    (hp : StepProps g sg) :
    ∀ (ks : List Key) (c : RMap V) {j : Key} {v : V}, definedAt c j = some v →
      definedAt (getManyAux sg ks c).cache j = some v := by
  intro ks
  induction ks with
  | nil => intro c j v hj; simpa [getManyAux] using hj
  | cons k ks ih =>
    intro c j v hj
    rcases hs : sg k c with ⟨res, c', tr⟩
    cases res with
    | error e =>
      rw [getManyAux_cons_err hs]
      have h2 := hp.preserve k c j v hj
      rw [hs] at h2
      exact h2
    | ok v₀ =>
      rw [getManyAux_cons_ok hs]
      exact ih _ (hp.assign_preserve hs hj)

theorem StepProps.many_preserve_isSome {g : SGraph P V} {sg : Key → RMap V → SStep V}
    (hp : StepProps g sg) (ks : List Key) (c : RMap V) {j : Key}
    (h : (definedAt c j).isSome) : (definedAt (getManyAux sg ks c).cache j).isSome := by
  rcases Option.isSome_iff_exists.mp h with ⟨v, hv⟩
  rw [hp.many_preserve ks c hv]
  rfl

theorem StepProps.many_callsUndef {g : SGraph P V} {sg : Key → RMap V → SStep V}
    (hp : StepProps g sg) :
    ∀ (ks : List Key) (c : RMap V) {j : Key}, j ∈ (getManyAux sg ks c).calls →
      definedAt c j = none := by
  intro ks
  induction ks with
  | nil => intro c j hj; simp [getManyAux] at hj
  | cons k ks ih =>
    intro c j hj
    rcases hs : sg k c with ⟨res, c', tr⟩
    cases res with
    | error e =>
      rw [getManyAux_cons_err hs] at hj
      exact hp.callsUndef k c j (by rw [hs]; exact hj)
    | ok v₀ =>
      rw [getManyAux_cons_ok hs] at hj
      rcases List.mem_append.mp hj with h1 | h2
      · exact hp.callsUndef k c j (by rw [hs]; exact h1)
      · have hnone := ih _ h2
        rcases hc : definedAt c j with _ | v
        · rfl
        · have hpre := hp.assign_preserve hs hc
          rw [hpre] at hnone
          simp at hnone

theorem StepProps.many_callsSome {g : SGraph P V} {sg : Key → RMap V → SStep V}
    (hp : StepProps g sg) :
    ∀ (ks : List Key) (c : RMap V) {j : Key}, j ∈ (getManyAux sg ks c).calls →
      (definedAt (getManyAux sg ks c).cache j).isSome := by
  intro ks
  induction ks with
  | nil => intro c j hj; simp [getManyAux] at hj
  | cons k ks ih =>
    intro c j hj
    rcases hs : sg k c with ⟨res, c', tr⟩
    cases res with
    | error e =>
      rw [getManyAux_cons_err hs] at hj ⊢
      have h2 := hp.callsSome k c j (by rw [hs]; exact hj)
      rw [hs] at h2
      exact h2
    | ok v₀ =>
      rw [getManyAux_cons_ok hs] at hj ⊢
      rcases List.mem_append.mp hj with h1 | h2
      · have hsome := hp.callsSome k c j (by rw [hs]; exact h1)
        rw [hs] at hsome
        refine hp.many_preserve_isSome ks _ ?_
        by_cases hjk : j = k
        · rw [definedAt_assignJ, if_pos hjk]
          exact hp.okSome k c v₀ (by rw [hs])
        · rw [definedAt_assignJ, if_neg hjk]
          exact hsome
      · exact ih _ h2

theorem StepProps.many_callsOnce {g : SGraph P V} {sg : Key → RMap V → SStep V}
    (hp : StepProps g sg) :
    ∀ (ks : List Key) (c : RMap V) (j : Key), ((getManyAux sg ks c).calls).count j ≤ 1 := by
  intro ks
  induction ks with
  | nil => intro c j; simp [getManyAux]
  | cons k ks ih =>
    intro c j
    rcases hs : sg k c with ⟨res, c', tr⟩
    cases res with
    | error e =>
      rw [getManyAux_cons_err hs]
      have h2 := hp.callsOnce k c j
      rw [hs] at h2
      exact h2
    | ok v₀ =>
      rw [getManyAux_cons_ok hs]
      show (tr ++ (getManyAux sg ks (assignJ c' k v₀)).calls).count j ≤ 1
      rw [List.count_append]
      by_cases hm : j ∈ tr
      · have h1 : tr.count j ≤ 1 := by
          have h2 := hp.callsOnce k c j
          rw [hs] at h2
          exact h2
        have hnot : j ∉ (getManyAux sg ks (assignJ c' k v₀)).calls := by
          intro h2
          have hnone := hp.many_callsUndef ks _ h2
          have hsome : (definedAt (assignJ c' k v₀) j).isSome := by
            by_cases hjk : j = k
            · rw [definedAt_assignJ, if_pos hjk]
              exact hp.okSome k c v₀ (by rw [hs])
            · rw [definedAt_assignJ, if_neg hjk]
              have h3 := hp.callsSome k c j (by rw [hs]; exact hm)
              rw [hs] at h3
              exact h3
          rw [hnone] at hsome
          simp at hsome
        rw [List.count_eq_zero.mpr hnot]
        omega
      · rw [List.count_eq_zero.mpr (by intro h2; exact hm h2 : j ∉ tr)]
        have := ih (assignJ c' k v₀) j
        omega

theorem StepProps.many_newCalled {g : SGraph P V} {sg : Key → RMap V → SStep V}
    (hp : StepProps g sg) :
    ∀ (ks : List Key) (c : RMap V) {j : Key}, definedAt c j = none →
      (definedAt (getManyAux sg ks c).cache j).isSome →
      j ∈ (getManyAux sg ks c).calls := by
  intro ks
  induction ks with
  | nil =>
    intro c j hnone hsome
    simp only [getManyAux] at hsome
    rw [hnone] at hsome
    simp at hsome
  | cons k ks ih =>
    intro c j hnone hsome
    rcases hs : sg k c with ⟨res, c', tr⟩
    cases res with
    | error e =>
      rw [getManyAux_cons_err hs] at hsome ⊢
      have h2 := hp.newCalled k c j hnone (by rw [hs]; exact hsome)
      rw [hs] at h2
      exact h2
    | ok v₀ =>
      rw [getManyAux_cons_ok hs] at hsome ⊢
      rcases h2 : definedAt (assignJ c' k v₀) j with _ | v
      · exact List.mem_append.mpr (.inr (ih _ h2 hsome))
      · refine List.mem_append.mpr (.inl ?_)
        by_cases hjk : j = k
        · have hok : (sg k c).res = .ok v₀ := by rw [hs]
          have hslot := hp.okSlot k c v₀ hok
          rw [definedAt_assignJ, if_pos hjk] at h2
          have h3 := hp.newCalled k c j hnone (by rw [hjk, hslot, h2]; rfl)
          rw [hs] at h3
          exact h3
        · rw [definedAt_assignJ, if_neg hjk] at h2
          have h3 := hp.newCalled k c j hnone (by rw [hs]; rw [h2]; rfl)
          rw [hs] at h3
          exact h3

theorem getManyAux_total {sg : Key → RMap V → SStep V} :
    ∀ (ks : List Key), (∀ k ∈ ks, ∀ c : RMap V, ∃ v, (sg k c).res = .ok v) →
      ∀ c : RMap V, (getManyAux sg ks c).res = .ok () := by
  intro ks
  induction ks with
  | nil => intro _ c; rfl
  | cons k ks ih =>
    intro h c
    obtain ⟨v, hv⟩ := h k (List.mem_cons_self _ _) c
    rcases hs : sg k c with ⟨res, c', tr⟩
    rw [hs] at hv
    cases res with
    | error e => simp at hv
    | ok v₀ =>
      rw [getManyAux_cons_ok hs]
      exact ih (fun k hk c => h k (List.mem_cons_of_mem _ hk) c) _

theorem StepProps.many_okDefined {g : SGraph P V} {sg : Key → RMap V → SStep V}
    (hp : StepProps g sg) :
    ∀ (ks : List Key) (c : RMap V), (getManyAux sg ks c).res = .ok () →
      ∀ k ∈ ks, (definedAt (getManyAux sg ks c).cache k).isSome := by
  intro ks
  induction ks with
  | nil => intro c _ k hk; simp at hk
  | cons k ks ih =>
    intro c hok k' hk'
    rcases hs : sg k c with ⟨res, c', tr⟩
    cases res with
    | error e =>
      rw [getManyAux_cons_err hs] at hok
      simp at hok
    | ok v₀ =>
      rw [getManyAux_cons_ok hs] at hok ⊢
      rcases List.mem_cons.mp hk' with rfl | hk2
      · refine hp.many_preserve_isSome ks _ ?_
        rw [definedAt_assignJ, if_pos rfl]
        exact hp.okSome k' c v₀ (by rw [hs])
      · exact ih _ hok k' hk2

theorem StepProps.many_callsDeps {g : SGraph P V} {sg : Key → RMap V → SStep V}
    (hp : StepProps g sg) :
    ∀ (ks : List Key) (c : RMap V) {j : Key}, j ∈ (getManyAux sg ks c).calls →
      ∀ n, lookupNode g j = some n → ∀ d ∈ sDepsOf n,
        (definedAt (getManyAux sg ks c).cache d).isSome := by
  intro ks
  induction ks with
  | nil => intro c j hj; simp [getManyAux] at hj
  | cons k ks ih =>
    intro c j hj n hn d hd
    rcases hs : sg k c with ⟨res, c', tr⟩
    cases res with
    | error e =>
      rw [getManyAux_cons_err hs] at hj ⊢
      have h2 := hp.callsDeps k c j (by rw [hs]; exact hj) n hn d hd
      rw [hs] at h2
      exact h2
    | ok v₀ =>
      rw [getManyAux_cons_ok hs] at hj ⊢
      rcases List.mem_append.mp hj with h1 | h2
      · have hsome := hp.callsDeps k c j (by rw [hs]; exact h1) n hn d hd
        rw [hs] at hsome
        refine hp.many_preserve_isSome ks _ ?_
        by_cases hdk : d = k
        · rw [definedAt_assignJ, if_pos hdk]
          exact hp.okSome k c v₀ (by rw [hs])
        · rw [definedAt_assignJ, if_neg hdk]
          exact hsome
      · exact ih _ h2 n hn d hd

theorem StepProps.many_callsReg {g : SGraph P V} {sg : Key → RMap V → SStep V}
    (hp : StepProps g sg) :
    ∀ (ks : List Key) (c : RMap V) {j : Key}, j ∈ (getManyAux sg ks c).calls →
      (lookupDeps (specOfS g) j).isSome ∧
        ∃ k ∈ ks, rankOf (specOfS g) j ≤ rankOf (specOfS g) k := by
  intro ks
  induction ks with
  | nil => intro c j hj; simp [getManyAux] at hj
  | cons k ks ih =>
    intro c j hj
    rcases hs : sg k c with ⟨res, c', tr⟩
    cases res with
    | error e =>
      rw [getManyAux_cons_err hs] at hj
      obtain ⟨h1, h2⟩ := hp.callsReg k c j (by rw [hs]; exact hj)
      exact ⟨h1, k, List.mem_cons_self _ _, h2⟩
    | ok v₀ =>
      rw [getManyAux_cons_ok hs] at hj
      rcases List.mem_append.mp hj with h1 | h2
      · obtain ⟨h3, h4⟩ := hp.callsReg k c j (by rw [hs]; exact h1)
        exact ⟨h3, k, List.mem_cons_self _ _, h4⟩
      · obtain ⟨h3, k', hk', h4⟩ := ih _ h2
        exact ⟨h3, k', List.mem_cons_of_mem _ hk', h4⟩

end Fimbul

namespace Fimbul

variable {P V : Type}

/-- The step invariants hold for `get` at every fuel, on a registry
reachable through `define` whose user functions always return defined
values. -/
theorem stepProps_get {g : SGraph P V} (w : WFS g) (tot : TotalFns g) (p : P) :
    ∀ fuel, StepProps g (fun k c => get fuel g k p c) := by
  have htot : ∀ {k : Key} {n : SNode P V}, lookupNode g k = some n →
      ∀ c : RMap V, (sFnOf n p c).isSome := by
    intro k n hl c
    exact tot (k, n) (lookupJ_mem hl) p c
  intro fuel
  induction fuel with
  | zero =>
    refine ⟨?_, ?_, ?_, ?_, ?_, ?_, ?_, ?_, ?_, ?_⟩
    · intro k c v h
      exact get_hit h 0 p
    · intro k c j v hj
      rcases hd : definedAt c k with _ | v₀ <;> simp only [get, hd] <;> exact hj
    · intro k c j hj
      rcases hd : definedAt c k with _ | v₀ <;> simp only [get, hd] at hj <;> simp at hj
    · intro k c j hj
      rcases hd : definedAt c k with _ | v₀ <;> simp only [get, hd] at hj <;> simp at hj
    · intro k c j
      rcases hd : definedAt c k with _ | v₀ <;> simp only [get, hd] <;> simp
    · intro k c j hnone hsome
      rcases hd : definedAt c k with _ | v₀ <;> simp only [get, hd] at hsome <;>
        rw [hnone] at hsome <;> simp at hsome
    · intro k c v hres
      rcases hd : definedAt c k with _ | v₀
      · simp only [get, hd] at hres
        exact absurd hres (by simp)
      · rw [get_hit hd 0 p] at hres
        injection hres with h2
        rw [← h2]
        rfl
    · intro k c v hres
      rcases hd : definedAt c k with _ | v₀
      · simp only [get, hd] at hres
        exact absurd hres (by simp)
      · rw [get_hit hd 0 p] at hres
        simp only [get_hit hd 0 p]
        injection hres with h2
        rw [← h2]
        exact hd
    · intro k c j hj
      rcases hd : definedAt c k with _ | v₀ <;> simp only [get, hd] at hj <;> simp at hj
    · intro k c j hj
      rcases hd : definedAt c k with _ | v₀ <;> simp only [get, hd] at hj <;> simp at hj
  | succ fuel ih =>
    refine ⟨?_, ?_, ?_, ?_, ?_, ?_, ?_, ?_, ?_, ?_⟩
    -- hit
    · intro k c v h
      exact get_hit h (fuel + 1) p
    -- preserve
    · intro k c j v hj
      rcases hd : definedAt c k with _ | v₀
      · rcases hl : lookupNode g k with _ | n
        · simp only [get_notFound hd hl fuel p]
          exact hj
        · cases n with
          | plain fn =>
            simp only [get_plain hd hl fuel p]
            by_cases hjk : j = k
            · rw [hjk] at hj; rw [hj] at hd; simp at hd
            · rw [definedAt_assignJ, if_neg hjk]; exact hj
          | withDeps fn ds =>
            rcases hm : getManyAux (fun k c => get fuel g k p c) ds c with ⟨mres, mc, mtr⟩
            cases mres with
            | error e =>
              simp only [get_withDeps_err hd hl hm]
              have h2 := ih.many_preserve ds c hj
              rw [hm] at h2
              exact h2
            | ok u =>
              simp only [get_withDeps_ok hd hl hm]
              have h2 := ih.many_preserve ds c hj
              rw [hm] at h2
              by_cases hjk : j = k
              · rw [hjk] at hj; rw [hj] at hd; simp at hd
              · rw [definedAt_assignJ, if_neg hjk]; exact h2
      · simp only [get_hit hd (fuel + 1) p]
        exact hj
    -- callsUndef
    · intro k c j hj
      rcases hd : definedAt c k with _ | v₀
      · rcases hl : lookupNode g k with _ | n
        · rw [get_notFound hd hl fuel p] at hj
          simp at hj
        · cases n with
          | plain fn =>
            rw [get_plain hd hl fuel p] at hj
            have h2 : j = k := List.mem_singleton.mp hj
            rw [h2]
            exact hd
          | withDeps fn ds =>
            rcases hm : getManyAux (fun k c => get fuel g k p c) ds c with ⟨mres, mc, mtr⟩
            cases mres with
            | error e =>
              rw [get_withDeps_err hd hl hm] at hj
              exact ih.many_callsUndef ds c (by rw [hm]; exact hj)
            | ok u =>
              rw [get_withDeps_ok hd hl hm] at hj
              rcases List.mem_append.mp hj with h1 | h2
              · exact ih.many_callsUndef ds c (by rw [hm]; exact h1)
              · rw [List.mem_singleton.mp h2]
                exact hd
      · rw [get_hit hd (fuel + 1) p] at hj
        simp at hj
    -- callsSome
    · intro k c j hj
      rcases hd : definedAt c k with _ | v₀
      · rcases hl : lookupNode g k with _ | n
        · rw [get_notFound hd hl fuel p] at hj
          simp at hj
        · cases n with
          | plain fn =>
            rw [get_plain hd hl fuel p] at hj
            simp only [get_plain hd hl fuel p]
            rw [List.mem_singleton.mp hj, definedAt_assignJ, if_pos rfl]
            exact htot hl c
          | withDeps fn ds =>
            rcases hm : getManyAux (fun k c => get fuel g k p c) ds c with ⟨mres, mc, mtr⟩
            have hkd : lookupDeps (specOfS g) k = some ds := by
              rw [specOfS_lookup, hl]; rfl
            have hknotin : k ∉ mtr := by
              intro hmem
              obtain ⟨_, k', hk', hle⟩ := ih.many_callsReg ds c (by rw [hm]; exact hmem)
              have hlt := (w.dep_lt hkd hk').2
              omega
            cases mres with
            | error e =>
              rw [get_withDeps_err hd hl hm] at hj
              simp only [get_withDeps_err hd hl hm]
              have h2 := ih.many_callsSome ds c (by rw [hm]; exact hj)
              rw [hm] at h2
              exact h2
            | ok u =>
              rw [get_withDeps_ok hd hl hm] at hj
              simp only [get_withDeps_ok hd hl hm]
              rcases List.mem_append.mp hj with h1 | h2
              · have hjne : j ≠ k := by
                  intro h3
                  rw [h3] at h1
                  exact hknotin h1
                rw [definedAt_assignJ, if_neg hjne]
                have h2 := ih.many_callsSome ds c (by rw [hm]; exact h1)
                rw [hm] at h2
                exact h2
              · rw [List.mem_singleton.mp h2, definedAt_assignJ, if_pos rfl]
                exact htot hl mc
      · rw [get_hit hd (fuel + 1) p] at hj
        simp at hj
    -- callsOnce
    · intro k c j
      rcases hd : definedAt c k with _ | v₀
      · rcases hl : lookupNode g k with _ | n
        · simp only [get_notFound hd hl fuel p]
          simp
        · cases n with
          | plain fn =>
            simp only [get_plain hd hl fuel p]
            rw [List.count_singleton']
            split <;> omega
          | withDeps fn ds =>
            rcases hm : getManyAux (fun k c => get fuel g k p c) ds c with ⟨mres, mc, mtr⟩
            have hkd : lookupDeps (specOfS g) k = some ds := by
              rw [specOfS_lookup, hl]; rfl
            have hknotin : k ∉ mtr := by
              intro hmem
              obtain ⟨_, k', hk', hle⟩ := ih.many_callsReg ds c (by rw [hm]; exact hmem)
              have hlt := (w.dep_lt hkd hk').2
              omega
            have hcnt : mtr.count j ≤ 1 := by
              have h2 := ih.many_callsOnce ds c j
              rw [hm] at h2
              exact h2
            cases mres with
            | error e =>
              simp only [get_withDeps_err hd hl hm]
              exact hcnt
            | ok u =>
              simp only [get_withDeps_ok hd hl hm]
              rw [List.count_append, List.count_singleton']
              by_cases hjk : k = j
              · rw [if_pos hjk, ← hjk, List.count_eq_zero.mpr hknotin]
              · rw [if_neg hjk]
                omega
      · simp only [get_hit hd (fuel + 1) p]
        simp
    -- newCalled
    · intro k c j hnone hsome
      rcases hd : definedAt c k with _ | v₀
      · rcases hl : lookupNode g k with _ | n
        · rw [get_notFound hd hl fuel p] at hsome
          rw [hnone] at hsome
          simp at hsome
        · cases n with
          | plain fn =>
            rw [get_plain hd hl fuel p] at hsome ⊢
            by_cases hjk : j = k
            · rw [hjk]
              exact List.mem_singleton.mpr rfl
            · rw [definedAt_assignJ, if_neg hjk, hnone] at hsome
              simp at hsome
          | withDeps fn ds =>
            rcases hm : getManyAux (fun k c => get fuel g k p c) ds c with ⟨mres, mc, mtr⟩
            cases mres with
            | error e =>
              rw [get_withDeps_err hd hl hm] at hsome ⊢
              have h2 := ih.many_newCalled ds c hnone (by rw [hm]; exact hsome)
              rw [hm] at h2
              exact h2
            | ok u =>
              rw [get_withDeps_ok hd hl hm] at hsome ⊢
              by_cases hjk : j = k
              · rw [hjk]
                exact List.mem_append.mpr (.inr (List.mem_singleton.mpr rfl))
              · rw [definedAt_assignJ, if_neg hjk] at hsome
                have h2 := ih.many_newCalled ds c hnone (by rw [hm]; exact hsome)
                rw [hm] at h2
                exact List.mem_append.mpr (.inl h2)
      · rw [get_hit hd (fuel + 1) p] at hsome
        rw [hnone] at hsome
        simp at hsome
    -- okSome
    · intro k c v hres
      rcases hd : definedAt c k with _ | v₀
      · rcases hl : lookupNode g k with _ | n
        · rw [get_notFound hd hl fuel p] at hres
          exact absurd hres (by simp)
        · cases n with
          | plain fn =>
            rw [get_plain hd hl fuel p] at hres
            injection hres with h2
            rw [← h2]
            exact htot hl c
          | withDeps fn ds =>
            rcases hm : getManyAux (fun k c => get fuel g k p c) ds c with ⟨mres, mc, mtr⟩
            cases mres with
            | error e =>
              rw [get_withDeps_err hd hl hm] at hres
              exact absurd hres (by simp)
            | ok u =>
              rw [get_withDeps_ok hd hl hm] at hres
              injection hres with h2
              rw [← h2]
              exact htot hl mc
      · rw [get_hit hd (fuel + 1) p] at hres
        injection hres with h2
        rw [← h2]
        rfl
    -- okSlot
    · intro k c v hres
      rcases hd : definedAt c k with _ | v₀
      · rcases hl : lookupNode g k with _ | n
        · rw [get_notFound hd hl fuel p] at hres
          exact absurd hres (by simp)
        · cases n with
          | plain fn =>
            rw [get_plain hd hl fuel p] at hres
            simp only [get_plain hd hl fuel p]
            injection hres with h2
            rw [definedAt_assignJ, if_pos rfl, h2]
          | withDeps fn ds =>
            rcases hm : getManyAux (fun k c => get fuel g k p c) ds c with ⟨mres, mc, mtr⟩
            cases mres with
            | error e =>
              rw [get_withDeps_err hd hl hm] at hres
              exact absurd hres (by simp)
            | ok u =>
              rw [get_withDeps_ok hd hl hm] at hres
              simp only [get_withDeps_ok hd hl hm]
              injection hres with h2
              rw [definedAt_assignJ, if_pos rfl, h2]
      · rw [get_hit hd (fuel + 1) p] at hres
        simp only [get_hit hd (fuel + 1) p]
        injection hres with h2
        rw [← h2]
        exact hd
    -- callsReg
    · intro k c j hj
      rcases hd : definedAt c k with _ | v₀
      · rcases hl : lookupNode g k with _ | n
        · rw [get_notFound hd hl fuel p] at hj
          simp at hj
        · cases n with
          | plain fn =>
            rw [get_plain hd hl fuel p] at hj
            rw [List.mem_singleton.mp hj]
            refine ⟨?_, le_refl _⟩
            rw [specOfS_lookup, hl]
            rfl
          | withDeps fn ds =>
            rcases hm : getManyAux (fun k c => get fuel g k p c) ds c with ⟨mres, mc, mtr⟩
            have hkd : lookupDeps (specOfS g) k = some ds := by
              rw [specOfS_lookup, hl]; rfl
            have hsub : j ∈ mtr →
                (lookupDeps (specOfS g) j).isSome ∧
                  rankOf (specOfS g) j ≤ rankOf (specOfS g) k := by
              intro h1
              obtain ⟨h3, k', hk', h4⟩ := ih.many_callsReg ds c (by rw [hm]; exact h1)
              have hlt := (w.dep_lt hkd hk').2
              exact ⟨h3, by omega⟩
            cases mres with
            | error e =>
              rw [get_withDeps_err hd hl hm] at hj
              exact hsub hj
            | ok u =>
              rw [get_withDeps_ok hd hl hm] at hj
              rcases List.mem_append.mp hj with h1 | h2
              · exact hsub h1
              · rw [List.mem_singleton.mp h2]
                exact ⟨by rw [hkd]; rfl, le_refl _⟩
      · rw [get_hit hd (fuel + 1) p] at hj
        simp at hj
    -- callsDeps
    · intro k c j hj n hn d hd2
      rcases hd : definedAt c k with _ | v₀
      · rcases hl : lookupNode g k with _ | n'
        · rw [get_notFound hd hl fuel p] at hj
          simp at hj
        · cases n' with
          | plain fn =>
            rw [get_plain hd hl fuel p] at hj
            rw [List.mem_singleton.mp hj] at hn
            rw [hn] at hl
            injection hl with h2
            rw [h2] at hd2
            simp [sDepsOf] at hd2
          | withDeps fn ds =>
            rcases hm : getManyAux (fun k c => get fuel g k p c) ds c with ⟨mres, mc, mtr⟩
            cases mres with
            | error e =>
              rw [get_withDeps_err hd hl hm] at hj
              simp only [get_withDeps_err hd hl hm]
              have h2 := ih.many_callsDeps ds c (by rw [hm]; exact hj) n hn d hd2
              rw [hm] at h2
              exact h2
            | ok u =>
              rw [get_withDeps_ok hd hl hm] at hj
              simp only [get_withDeps_ok hd hl hm]
              by_cases hdk : d = k
              · rw [definedAt_assignJ, if_pos hdk]
                exact htot hl mc
              · rw [definedAt_assignJ, if_neg hdk]
                rcases List.mem_append.mp hj with h1 | h2
                · have h3 := ih.many_callsDeps ds c (by rw [hm]; exact h1) n hn d hd2
                  rw [hm] at h3
                  exact h3
                · rw [List.mem_singleton.mp h2] at hn
                  rw [hn] at hl
                  injection hl with h3
                  rw [h3] at hd2
                  have h4 := ih.many_okDefined ds c (by rw [hm]) d hd2
                  rw [hm] at h4
                  exact h4
      · rw [get_hit hd (fuel + 1) p] at hj
        simp at hj

/-- `get` succeeds on a registry reachable through `define` whenever the
requested key is registered and the fuel exceeds its registration rank. -/
theorem get_total {g : SGraph P V} (w : WFS g) (p : P) :
    ∀ (fuel : Nat) (k : Key), (lookupNode g k).isSome → rankOf (specOfS g) k < fuel →
      ∀ c : RMap V, ∃ v, (get fuel g k p c).res = .ok v := by
  intro fuel
  induction fuel with
  | zero => intro k _ h; omega
  | succ fuel ih =>
    intro k hk hrank c
    rcases hd : definedAt c k with _ | v
    · rcases hl : lookupNode g k with _ | n
      · rw [hl] at hk; simp at hk
      · cases n with
        | plain fn => exact ⟨fn p c, by rw [get_plain hd hl fuel p]⟩
        | withDeps fn ds =>
          have hkd : lookupDeps (specOfS g) k = some ds := by
            rw [specOfS_lookup, hl]; rfl
          have hok : (getManyAux (fun k c => get fuel g k p c) ds c).res = .ok () := by
            refine getManyAux_total ds ?_ c
            intro d hdm c''
            obtain ⟨hreg, hlt⟩ := w.dep_lt hkd hdm
            have hreg' : (lookupNode g d).isSome := by
              rw [specOfS_lookup] at hreg
              rcases h2 : lookupNode g d with _ | n2
              · rw [h2] at hreg; simp at hreg
              · rfl
            exact ih d hreg' (by omega) c''
          rcases hm : getManyAux (fun k c => get fuel g k p c) ds c with ⟨mres, mc, mtr⟩
          rw [hm] at hok
          cases mres with
          | error e => exact absurd hok (by simp)
          | ok u => exact ⟨fn p mc, by rw [get_withDeps_ok hd hl hm]⟩
    · exact ⟨some v, by rw [get_hit hd (fuel + 1) p]⟩

end Fimbul

/-! ## Behaviour of the asynchronous engine -/

theorem lookupJ_assignJ_isSome {A : Type} (m : JMap A) (j k : Key) (a : A)
    (h : (lookupJ m j).isSome) : (lookupJ (assignJ m k a) j).isSome := by
  by_cases hjk : j = k
  · rw [hjk, lookupJ_assignJ_self]
    rfl
  · rw [lookupJ_assignJ_ne m hjk]
    exact h

theorem lookupJ_resultsToPromises {V : Type} (c : RMap V) (k : Key) :
    lookupJ (FimbulAsync.resultsToPromises c) k = (lookupJ c k).map (fun v => .ok v) := by
  induction c with
  | nil => rfl
  | cons e rest ih =>
    cases e with
    | mk ek ev =>
      show lookupJ ((ek, Except.ok ev) :: FimbulAsync.resultsToPromises rest) k = _
      rw [lookupJ_cons, lookupJ_cons]
      by_cases he : ek = k
      · simp [he]
      · simp [he, ih]

namespace FimbulAsync

variable {P V : Type}

theorem rc_hit {g : AGraph P V} {pm : PMap V} {key : Key} {out : Except String (Option V)}
    (h : lookupJ pm key = some out) (fuel : Nat) (p : P) :
    resolveComputation fuel g key p pm = ⟨out, pm, []⟩ := by
  cases fuel <;> simp [resolveComputation, h]

theorem rc_fuel {g : AGraph P V} {pm : PMap V} {key : Key}
    (h : lookupJ pm key = none) (p : P) :
    resolveComputation 0 g key p pm = ⟨.error aFuelMsg, pm, []⟩ := by
  simp [resolveComputation, h]

theorem rc_notFound {g : AGraph P V} {pm : PMap V} {key : Key}
    (h : lookupJ pm key = none) (hl : lookupANode g key = none) (fuel : Nat) (p : P) :
    resolveComputation (fuel + 1) g key p pm = ⟨.error (aNotFound key), pm, []⟩ := by
  simp [resolveComputation, h, hl]

theorem rc_node_err {g : AGraph P V} {pm pm' : PMap V} {key : Key} {nd : ANode P V}
    {e : String} {tr : List Key} {fuel : Nat} {p : P}
    (h : lookupJ pm key = none) (hl : lookupANode g key = some nd)
    (hd : resolveDependencies (fun k pm => resolveComputation fuel g k p pm) nd.deps pm =
      ⟨.error e, pm', tr⟩) :
    resolveComputation (fuel + 1) g key p pm =
      ⟨.error e, assignJ pm' key (.error e), tr⟩ := by
  simp [resolveComputation, h, hl, hd]

theorem rc_node_ok {g : AGraph P V} {pm pm' : PMap V} {key : Key} {nd : ANode P V}
    {dm : RMap V} {tr : List Key} {fuel : Nat} {p : P}
    (h : lookupJ pm key = none) (hl : lookupANode g key = some nd)
    (hd : resolveDependencies (fun k pm => resolveComputation fuel g k p pm) nd.deps pm =
      ⟨.ok dm, pm', tr⟩) :
    resolveComputation (fuel + 1) g key p pm =
      ⟨nd.fn p dm, assignJ pm' key (nd.fn p dm), tr ++ [key]⟩ := by
  simp [resolveComputation, h, hl, hd]

theorem depSlot_hit {arc : Key → PMap V → AStep V} {pm : PMap V} {k : Key}
    {out : Except String (Option V)} (h : lookupJ pm k = some out) :
    depSlot arc k pm = ⟨out, pm, []⟩ := by
  simp [depSlot, h]

theorem depSlot_miss_ok {arc : Key → PMap V → AStep V} {pm pm' : PMap V} {k : Key}
    {v : Option V} {tr : List Key} (h : lookupJ pm k = none)
    (ha : arc k pm = ⟨.ok v, pm', tr⟩) :
    depSlot arc k pm = ⟨.ok v, assignJ pm' k (.ok v), tr⟩ := by
  simp [depSlot, h, ha]

theorem depSlot_miss_err {arc : Key → PMap V → AStep V} {pm pm' : PMap V} {k : Key}
    {e : String} {tr : List Key} (h : lookupJ pm k = none)
    (ha : arc k pm = ⟨.error e, pm', tr⟩) :
    depSlot arc k pm = ⟨.error (wrapFail k e), assignJ pm' k (.error (wrapFail k e)), tr⟩ := by
  simp [depSlot, h, ha]

theorem rd_nil {arc : Key → PMap V → AStep V} {pm : PMap V} :
    resolveDependencies arc [] pm = ⟨.ok [], pm, []⟩ := rfl

/-- The cache and the invocation list of `resolveDependencies` do not
depend on which slots settle to rejections: every branch threads the
head slot's cache into the tail and concatenates the invocation lists. -/
theorem rd_parts {arc : Key → PMap V → AStep V} (k : Key) (ks : List Key) (pm : PMap V) :
    (resolveDependencies arc (k :: ks) pm).pcache =
      (resolveDependencies arc ks (depSlot arc k pm).pcache).pcache ∧
    (resolveDependencies arc (k :: ks) pm).calls =
      (depSlot arc k pm).calls ++ (resolveDependencies arc ks (depSlot arc k pm).pcache).calls := by
  simp only [resolveDependencies]
  rcases h1 : (depSlot arc k pm).out with e | v <;>
    rcases h2 : (resolveDependencies arc ks (depSlot arc k pm).pcache).out with e2 | vs <;>
      simp [h1, h2]

/-- On success `resolveDependencies` returns a map holding exactly the
requested keys, in order. -/
theorem rd_keys {arc : Key → PMap V → AStep V} :
    ∀ (ks : List Key) (pm : PMap V) (dm : RMap V),
      (resolveDependencies arc ks pm).out = .ok dm → dm.map Prod.fst = ks := by
  intro ks
  induction ks with
  | nil =>
    intro pm dm h
    rw [rd_nil] at h
    injection h with h2
    rw [← h2]
    rfl
  | cons k ks ih =>
    intro pm dm h
    simp only [resolveDependencies] at h
    rcases h1 : (depSlot arc k pm).out with e | v <;>
      rcases h2 : (resolveDependencies arc ks (depSlot arc k pm).pcache).out with e2 | vs <;>
        rw [h1, h2] at h <;> simp at h
    subst h
    show k :: List.map Prod.fst vs = k :: ks
    rw [ih _ _ h2]

/-- Behavioural invariants of one async resolution step, instantiated
below by `fun k pm => resolveComputation fuel g k p pm` for every fuel,
assuming `WFA g`: an occupied slot is returned as-is without invoking
anything; occupied slots never empty; an invoked identifier's slot was
empty before the call and occupied after it; no identifier is invoked
twice; and every invoked identifier is registered with rank at most the
requested key's. -/
structure AStepProps (g : AGraph P V) (arc : Key → PMap V → AStep V) : Prop where
  hit : ∀ k pm out, lookupJ pm k = some out → arc k pm = ⟨out, pm, []⟩
  mono : ∀ k pm j, (lookupJ pm j).isSome → (lookupJ (arc k pm).pcache j).isSome
  callsAbsent : ∀ k pm j, j ∈ (arc k pm).calls → lookupJ pm j = none
  callsPresent : ∀ k pm j, j ∈ (arc k pm).calls → (lookupJ (arc k pm).pcache j).isSome
  callsOnce : ∀ k pm j, ((arc k pm).calls).count j ≤ 1
  callsReg : ∀ k pm j, j ∈ (arc k pm).calls →
    (lookupDeps (specOfA g) j).isSome ∧ rankOf (specOfA g) j ≤ rankOf (specOfA g) k

theorem AStepProps.slot_mono {g : AGraph P V} {arc : Key → PMap V → AStep V}
    (hp : AStepProps g arc) (k : Key) (pm : PMap V) {j : Key}
    (h : (lookupJ pm j).isSome) : (lookupJ (depSlot arc k pm).pcache j).isSome := by
  rcases hh : lookupJ pm k with _ | out
  · rcases ha : arc k pm with ⟨aout, apm, atr⟩
    have h2 := hp.mono k pm j h
    rw [ha] at h2
    cases aout with
    | error e =>
      rw [depSlot_miss_err hh ha]
      exact lookupJ_assignJ_isSome _ _ _ _ h2
    | ok v =>
      rw [depSlot_miss_ok hh ha]
      exact lookupJ_assignJ_isSome _ _ _ _ h2
  · rw [depSlot_hit hh]
    exact h

theorem AStepProps.slot_absent {g : AGraph P V} {arc : Key → PMap V → AStep V}
    (hp : AStepProps g arc) (k : Key) (pm : PMap V) {j : Key}
    (h : j ∈ (depSlot arc k pm).calls) : lookupJ pm j = none := by
  rcases hh : lookupJ pm k with _ | out
  · rcases ha : arc k pm with ⟨aout, apm, atr⟩
    have h2 : j ∈ atr → lookupJ pm j = none := by
      intro h3
      exact hp.callsAbsent k pm j (by rw [ha]; exact h3)
    cases aout with
    | error e =>
      rw [depSlot_miss_err hh ha] at h
      exact h2 h
    | ok v =>
      rw [depSlot_miss_ok hh ha] at h
      exact h2 h
  · rw [depSlot_hit hh] at h
    simp at h

theorem AStepProps.slot_present {g : AGraph P V} {arc : Key → PMap V → AStep V}
    (hp : AStepProps g arc) (k : Key) (pm : PMap V) {j : Key}
    (h : j ∈ (depSlot arc k pm).calls) :
    (lookupJ (depSlot arc k pm).pcache j).isSome := by
  rcases hh : lookupJ pm k with _ | out
  · rcases ha : arc k pm with ⟨aout, apm, atr⟩
    have h2 : j ∈ atr → (lookupJ apm j).isSome := by
      intro h3
      have h4 := hp.callsPresent k pm j (by rw [ha]; exact h3)
      rw [ha] at h4
      exact h4
    cases aout with
    | error e =>
      rw [depSlot_miss_err hh ha] at h ⊢
      exact lookupJ_assignJ_isSome _ _ _ _ (h2 h)
    | ok v =>
      rw [depSlot_miss_ok hh ha] at h ⊢
      exact lookupJ_assignJ_isSome _ _ _ _ (h2 h)
  · rw [depSlot_hit hh] at h
    simp at h

theorem AStepProps.slot_once {g : AGraph P V} {arc : Key → PMap V → AStep V}
    (hp : AStepProps g arc) (k : Key) (pm : PMap V) (j : Key) :
    ((depSlot arc k pm).calls).count j ≤ 1 := by
  rcases hh : lookupJ pm k with _ | out
  · rcases ha : arc k pm with ⟨aout, apm, atr⟩
    have h2 : atr.count j ≤ 1 := by
      have h3 := hp.callsOnce k pm j
      rw [ha] at h3
      exact h3
    cases aout with
    | error e => rw [depSlot_miss_err hh ha]; exact h2
    | ok v => rw [depSlot_miss_ok hh ha]; exact h2
  · rw [depSlot_hit hh]
    simp

theorem AStepProps.slot_reg {g : AGraph P V} {arc : Key → PMap V → AStep V}
    (hp : AStepProps g arc) (k : Key) (pm : PMap V) {j : Key}
    (h : j ∈ (depSlot arc k pm).calls) :
    (lookupDeps (specOfA g) j).isSome ∧ rankOf (specOfA g) j ≤ rankOf (specOfA g) k := by
  rcases hh : lookupJ pm k with _ | out
  · rcases ha : arc k pm with ⟨aout, apm, atr⟩
    have h2 : j ∈ atr → _ := fun h3 => hp.callsReg k pm j (by rw [ha]; exact h3)
    cases aout with
    | error e => rw [depSlot_miss_err hh ha] at h; exact h2 h
    | ok v => rw [depSlot_miss_ok hh ha] at h; exact h2 h
  · rw [depSlot_hit hh] at h
    simp at h

theorem AStepProps.rd_mono {g : AGraph P V} {arc : Key → PMap V → AStep V}
    (hp : AStepProps g arc) :
    ∀ (ks : List Key) (pm : PMap V) {j : Key}, (lookupJ pm j).isSome →
      (lookupJ (resolveDependencies arc ks pm).pcache j).isSome := by
  intro ks
  induction ks with
  | nil => intro pm j h; rw [rd_nil]; exact h
  | cons k ks ih =>
    intro pm j h
    rw [(rd_parts k ks pm).1]
    exact ih _ (hp.slot_mono k pm h)

theorem AStepProps.rd_absent {g : AGraph P V} {arc : Key → PMap V → AStep V}
    (hp : AStepProps g arc) :
    ∀ (ks : List Key) (pm : PMap V) {j : Key},
      j ∈ (resolveDependencies arc ks pm).calls → lookupJ pm j = none := by
  intro ks
  induction ks with
  | nil => intro pm j h; rw [rd_nil] at h; simp at h
  | cons k ks ih =>
    intro pm j h
    rw [(rd_parts k ks pm).2] at h
    rcases List.mem_append.mp h with h1 | h2
    · exact hp.slot_absent k pm h1
    · have h3 := ih _ h2
      rcases h4 : lookupJ pm j with _ | out
      · rfl
      · have h5 := hp.slot_mono k pm (j := j) (by rw [h4]; rfl)
        rw [h3] at h5
        simp at h5

theorem AStepProps.rd_present {g : AGraph P V} {arc : Key → PMap V → AStep V}
    (hp : AStepProps g arc) :
    ∀ (ks : List Key) (pm : PMap V) {j : Key},
      j ∈ (resolveDependencies arc ks pm).calls →
      (lookupJ (resolveDependencies arc ks pm).pcache j).isSome := by
  intro ks
  induction ks with
  | nil => intro pm j h; rw [rd_nil] at h; simp at h
  | cons k ks ih =>
    intro pm j h
    rw [(rd_parts k ks pm).2] at h
    rw [(rd_parts k ks pm).1]
    rcases List.mem_append.mp h with h1 | h2
    · exact hp.rd_mono ks _ (hp.slot_present k pm h1)
    · exact ih _ h2

theorem AStepProps.rd_once {g : AGraph P V} {arc : Key → PMap V → AStep V}
    (hp : AStepProps g arc) :
    ∀ (ks : List Key) (pm : PMap V) (j : Key),
      ((resolveDependencies arc ks pm).calls).count j ≤ 1 := by
  intro ks
  induction ks with
  | nil => intro pm j; rw [rd_nil]; simp
  | cons k ks ih =>
    intro pm j
    rw [(rd_parts k ks pm).2, List.count_append]
    by_cases hm : j ∈ (depSlot arc k pm).calls
    · have h1 := hp.slot_once k pm j
      have hnot : j ∉ (resolveDependencies arc ks (depSlot arc k pm).pcache).calls := by
        intro h2
        have h3 := hp.rd_absent ks _ h2
        have h4 := hp.slot_present k pm hm
        rw [h3] at h4
        simp at h4
      rw [List.count_eq_zero.mpr hnot]
      omega
    · rw [List.count_eq_zero.mpr hm]
      have := ih (depSlot arc k pm).pcache j
      omega

theorem AStepProps.rd_reg {g : AGraph P V} {arc : Key → PMap V → AStep V}
    (hp : AStepProps g arc) :
    ∀ (ks : List Key) (pm : PMap V) {j : Key},
      j ∈ (resolveDependencies arc ks pm).calls →
      (lookupDeps (specOfA g) j).isSome ∧
        ∃ k ∈ ks, rankOf (specOfA g) j ≤ rankOf (specOfA g) k := by
  intro ks
  induction ks with
  | nil => intro pm j h; rw [rd_nil] at h; simp at h
  | cons k ks ih =>
    intro pm j h
    rw [(rd_parts k ks pm).2] at h
    rcases List.mem_append.mp h with h1 | h2
    · obtain ⟨h3, h4⟩ := hp.slot_reg k pm h1
      exact ⟨h3, k, List.mem_cons_self _ _, h4⟩
    · obtain ⟨h3, k', hk', h4⟩ := ih _ h2
      exact ⟨h3, k', List.mem_cons_of_mem _ hk', h4⟩

/-- The async step invariants hold for `resolveComputation` at every
fuel, on a registry reachable through `define`. -/
theorem aStepProps_rc {g : AGraph P V} (w : WFA g) (p : P) :
    ∀ fuel, AStepProps g (fun k pm => resolveComputation fuel g k p pm) := by
  intro fuel
  induction fuel with
  | zero =>
    refine ⟨?_, ?_, ?_, ?_, ?_, ?_⟩
    · intro k pm out h
      exact rc_hit h 0 p
    · intro k pm j h
      rcases hh : lookupJ pm k with _ | out
      · rw [rc_fuel hh p]; exact h
      · rw [rc_hit hh 0 p]; exact h
    · intro k pm j h
      rcases hh : lookupJ pm k with _ | out
      · rw [rc_fuel hh p] at h; simp at h
      · rw [rc_hit hh 0 p] at h; simp at h
    · intro k pm j h
      rcases hh : lookupJ pm k with _ | out
      · rw [rc_fuel hh p] at h; simp at h
      · rw [rc_hit hh 0 p] at h; simp at h
    · intro k pm j
      rcases hh : lookupJ pm k with _ | out
      · rw [rc_fuel hh p]; simp
      · rw [rc_hit hh 0 p]; simp
    · intro k pm j h
      rcases hh : lookupJ pm k with _ | out
      · rw [rc_fuel hh p] at h; simp at h
      · rw [rc_hit hh 0 p] at h; simp at h
  | succ fuel ih =>
    refine ⟨?_, ?_, ?_, ?_, ?_, ?_⟩
    · intro k pm out h
      exact rc_hit h (fuel + 1) p
    -- mono
    · intro k pm j h
      rcases hh : lookupJ pm k with _ | out
      · rcases hl : lookupANode g k with _ | nd
        · rw [rc_notFound hh hl fuel p]; exact h
        · rcases hdm : resolveDependencies (fun k pm => resolveComputation fuel g k p pm)
            nd.deps pm with ⟨dout, dpm, dtr⟩
          have h2 := ih.rd_mono nd.deps pm h
          rw [hdm] at h2
          cases dout with
          | error e =>
            rw [rc_node_err hh hl hdm]
            exact lookupJ_assignJ_isSome _ _ _ _ h2
          | ok dm =>
            rw [rc_node_ok hh hl hdm]
            exact lookupJ_assignJ_isSome _ _ _ _ h2
      · rw [rc_hit hh (fuel + 1) p]; exact h
    -- callsAbsent
    · intro k pm j h
      rcases hh : lookupJ pm k with _ | out
      · rcases hl : lookupANode g k with _ | nd
        · rw [rc_notFound hh hl fuel p] at h; simp at h
        · rcases hdm : resolveDependencies (fun k pm => resolveComputation fuel g k p pm)
            nd.deps pm with ⟨dout, dpm, dtr⟩
          have h2 : j ∈ dtr → lookupJ pm j = none := by
            intro h3
            exact ih.rd_absent nd.deps pm (by rw [hdm]; exact h3)
          cases dout with
          | error e =>
            rw [rc_node_err hh hl hdm] at h
            exact h2 h
          | ok dm =>
            rw [rc_node_ok hh hl hdm] at h
            rcases List.mem_append.mp h with h3 | h4
            · exact h2 h3
            · rw [List.mem_singleton.mp h4]
              exact hh
      · rw [rc_hit hh (fuel + 1) p] at h; simp at h
    -- callsPresent
    · intro k pm j h
      rcases hh : lookupJ pm k with _ | out
      · rcases hl : lookupANode g k with _ | nd
        · rw [rc_notFound hh hl fuel p] at h; simp at h
        · rcases hdm : resolveDependencies (fun k pm => resolveComputation fuel g k p pm)
            nd.deps pm with ⟨dout, dpm, dtr⟩
          have h2 : j ∈ dtr → (lookupJ dpm j).isSome := by
            intro h3
            have h4 := ih.rd_present nd.deps pm (by rw [hdm]; exact h3)
            rw [hdm] at h4
            exact h4
          cases dout with
          | error e =>
            rw [rc_node_err hh hl hdm] at h ⊢
            exact lookupJ_assignJ_isSome _ _ _ _ (h2 h)
          | ok dm =>
            rw [rc_node_ok hh hl hdm] at h ⊢
            rcases List.mem_append.mp h with h3 | h4
            · exact lookupJ_assignJ_isSome _ _ _ _ (h2 h3)
            · rw [List.mem_singleton.mp h4, lookupJ_assignJ_self]
              rfl
      · rw [rc_hit hh (fuel + 1) p] at h; simp at h
    -- callsOnce
    · intro k pm j
      rcases hh : lookupJ pm k with _ | out
      · rcases hl : lookupANode g k with _ | nd
        · rw [rc_notFound hh hl fuel p]; simp
        · rcases hdm : resolveDependencies (fun k pm => resolveComputation fuel g k p pm)
            nd.deps pm with ⟨dout, dpm, dtr⟩
          have hkd : lookupDeps (specOfA g) k = some nd.deps := by
            rw [specOfA_lookup, hl]; rfl
          have hknotin : k ∉ dtr := by
            intro hmem
            obtain ⟨_, k', hk', hle⟩ := ih.rd_reg nd.deps pm (by rw [hdm]; exact hmem)
            have hlt := (w.dep_lt hkd hk').2
            omega
          have hcnt : dtr.count j ≤ 1 := by
            have h2 := ih.rd_once nd.deps pm j
            rw [hdm] at h2
            exact h2
          cases dout with
          | error e =>
            rw [rc_node_err hh hl hdm]
            exact hcnt
          | ok dm =>
            rw [rc_node_ok hh hl hdm]
            rw [List.count_append, List.count_singleton']
            by_cases hjk : k = j
            · rw [if_pos hjk, ← hjk, List.count_eq_zero.mpr hknotin]
            · rw [if_neg hjk]
              omega
      · rw [rc_hit hh (fuel + 1) p]; simp
    -- callsReg
    · intro k pm j h
      rcases hh : lookupJ pm k with _ | out
      · rcases hl : lookupANode g k with _ | nd
        · rw [rc_notFound hh hl fuel p] at h; simp at h
        · rcases hdm : resolveDependencies (fun k pm => resolveComputation fuel g k p pm)
            nd.deps pm with ⟨dout, dpm, dtr⟩
          have hkd : lookupDeps (specOfA g) k = some nd.deps := by
            rw [specOfA_lookup, hl]; rfl
          have hsub : j ∈ dtr →
              (lookupDeps (specOfA g) j).isSome ∧
                rankOf (specOfA g) j ≤ rankOf (specOfA g) k := by
            intro h1
            obtain ⟨h3, k', hk', h4⟩ := ih.rd_reg nd.deps pm (by rw [hdm]; exact h1)
            have hlt := (w.dep_lt hkd hk').2
            exact ⟨h3, by omega⟩
          cases dout with
          | error e =>
            rw [rc_node_err hh hl hdm] at h
            exact hsub h
          | ok dm =>
            rw [rc_node_ok hh hl hdm] at h
            rcases List.mem_append.mp h with h3 | h4
            · exact hsub h3
            · rw [List.mem_singleton.mp h4]
              exact ⟨by rw [hkd]; rfl, le_refl _⟩
      · rw [rc_hit hh (fuel + 1) p] at h; simp at h

end FimbulAsync

/-! ## Concrete graphs used by the claim theorems -/

/-- Parameters of the spec's worldgen example. -/
structure WGParams where
  x : Int
  y : Int

/-- `height = (p) => p.x + p.y`. -/
def heightFn : WGParams → RMap Int → Option Int := fun p _ => some (p.x + p.y)

/-- `temperature = (p, {height}) => p.y - height`: reads `height` from the
dependency map it is handed (yielding `undefined` if the slot is not a
defined number, which resolution prevents). -/
def temperatureFn : WGParams → RMap Int → Option Int := fun p m =>
  (definedAt m "height").map (fun h => p.y - h)

/-- The spec's example registry: `height` then `temperature` over it. -/
def worldGraph : SGraph WGParams Int :=
  (Fimbul.define ((Fimbul.define [] "height" heightFn none).1)
    "temperature" temperatureFn (some ["height"])).1

def depFn0 : Unit → RMap Nat → Option Nat := fun _ _ => some 0

def childFn1 : Unit → RMap Nat → Option Nat := fun _ _ => some 1

def childFn2 : Unit → RMap Nat → Option Nat := fun _ _ => some 2

/-- `dependency` feeding both `child1` and `child2`, all functions
returning defined values. -/
def sharedGraph : SGraph Unit Nat :=
  (Fimbul.define ((Fimbul.define ((Fimbul.define [] "dependency" depFn0 none).1)
    "child1" childFn1 (some ["dependency"])).1)
    "child2" childFn2 (some ["dependency"])).1

theorem sharedGraph_wfs : WFS sharedGraph :=
  WFS_define_wf (WFS_define_wf (WFS_define_wf
    (show WFS ([] : SGraph Unit Nat) from WFSpec.nil) "dependency" depFn0 none)
    "child1" childFn1 (some ["dependency"])) "child2" childFn2 (some ["dependency"])

theorem sharedGraph_total : TotalFns sharedGraph := by
  intro e he p c
  have hg : sharedGraph = [("child2", SNode.withDeps childFn2 ["dependency"]),
      ("child1", SNode.withDeps childFn1 ["dependency"]),
      ("dependency", SNode.plain depFn0)] := rfl
  rw [hg] at he
  simp at he
  rcases he with rfl | rfl | rfl <;> rfl

def undefFn : Unit → RMap Nat → Option Nat := fun _ _ => none

def childU1 : Unit → RMap Nat → Option Nat := fun _ _ => some 1

def childU2 : Unit → RMap Nat → Option Nat := fun _ _ => some 2

/-- `dependency` computing `undefined`, feeding both children. -/
def undefGraph : SGraph Unit Nat :=
  (Fimbul.define ((Fimbul.define ((Fimbul.define [] "dependency" undefFn none).1)
    "child1" childU1 (some ["dependency"])).1)
    "child2" childU2 (some ["dependency"])).1

/-- A node whose function reports the `"x"` slot of the map it receives
as second argument. -/
def observeFn : Unit → RMap Nat → Option Nat := fun _ m => definedAt m "x"

def observeGraph : SGraph Unit Nat :=
  (Fimbul.define [] "n" observeFn none).1

def aOneFn : Unit → RMap Nat → Except String (Option Nat) := fun _ _ => .ok (some 1)

def aOneGraph : AGraph Unit Nat :=
  (FimbulAsync.define [] "a" aOneFn none).1

def aDepFn : Unit → RMap Nat → Except String (Option Nat) := fun _ _ => .ok (some 0)

def aChild1 : Unit → RMap Nat → Except String (Option Nat) := fun _ _ => .ok (some 1)

def aChild2 : Unit → RMap Nat → Except String (Option Nat) := fun _ _ => .ok (some 2)

/-- Async `dependency` feeding both `child1` and `child2`. -/
def asyncSharedGraph : AGraph Unit Nat :=
  (FimbulAsync.define ((FimbulAsync.define ((FimbulAsync.define [] "dependency" aDepFn
    none).1) "child1" aChild1 (some ["dependency"])).1)
    "child2" aChild2 (some ["dependency"])).1

theorem asyncSharedGraph_wfa : WFA asyncSharedGraph :=
  WFA_define_wf (WFA_define_wf (WFA_define_wf
    (show WFA ([] : AGraph Unit Nat) from WFSpec.nil) "dependency" aDepFn none)
    "child1" aChild1 (some ["dependency"])) "child2" aChild2 (some ["dependency"])

/-- A node rejecting with the given message. -/
def aFailFn (m : String) : Unit → RMap Nat → Except String (Option Nat) := fun _ _ => .error m

/-- `dep` rejects with message `m`; `mid` depends on `dep`; `top`
depends on `mid`. -/
def failGraph (m : String) (midFn topFn : Unit → RMap Nat → Except String (Option Nat)) :
    AGraph Unit Nat :=
  (FimbulAsync.define ((FimbulAsync.define ((FimbulAsync.define [] "dep" (aFailFn m)
    none).1) "mid" midFn (some ["dep"])).1) "top" topFn (some ["mid"])).1

/-! ## Claim theorems -/

/-- C8: with `height = (p) => p.x + p.y` and
`temperature = (p, {height}) => p.y - height` over dependency
`["height"]`, `get("temperature", {x:1, y:5}, results)` returns `-1` and
leaves `results.height === 6`. -/
theorem c8_example_scenario :
    (Fimbul.get 2 worldGraph "temperature" ⟨1, 5⟩ []).res = .ok (some (-1)) ∧
    definedAt (Fimbul.get 2 worldGraph "temperature" ⟨1, 5⟩ []).cache "height" = some 6 :=
  ⟨rfl, rfl⟩

/-- C10: in the sync variant a node whose function returns `undefined`
is never treated as cached, because the cache-hit test is
`results[id] !== undefined`: a `get` for such a node invokes its
function, and so does a second `get` over the very results cache the
first one filled; concretely, an `undefined`-computing `dependency`
declared by both `child1` and `child2` is invoked twice by
`getMany(["child1", "child2"])` over one shared cache. -/
theorem c10_undefined_never_cached :
    (∀ (P V : Type) (g : SGraph P V) (id : Key) (p : P) (c : RMap V)
      (fn : P → RMap V → Option V) (fuel : Nat),
      (∀ c' : RMap V, fn p c' = none) → lookupNode g id = some (.plain fn) →
      definedAt c id = none →
      (Fimbul.get (fuel + 1) g id p c).calls = [id] ∧
      (Fimbul.get (fuel + 1) g id p ((Fimbul.get (fuel + 1) g id p c).cache)).calls = [id]) ∧
    ((Fimbul.getMany 3 undefGraph ["child1", "child2"] () []).calls).count "dependency" = 2 := by
  constructor
  · intro P V g id p c fn fuel hfn hl hd
    constructor
    · rw [Fimbul.get_plain hd hl fuel p]
    · have hc : (Fimbul.get (fuel + 1) g id p c).cache = assignJ c id (fn p c) := by
        rw [Fimbul.get_plain hd hl fuel p]
      rw [hc]
      have hd2 : definedAt (assignJ c id (fn p c)) id = none := by
        rw [definedAt_assignJ, if_pos rfl, hfn c]
      rw [Fimbul.get_plain hd2 hl fuel p]
  · rfl

/-- C10 witness: a concrete `undefined`-computing node is re-invoked by
the `get` that follows a `get`. -/
theorem c10_witness :
    (Fimbul.get 1 undefGraph "dependency" () []).calls = ["dependency"] ∧
    (Fimbul.get 1 undefGraph "dependency" ()
      ((Fimbul.get 1 undefGraph "dependency" () []).cache)).calls = ["dependency"] :=
  c10_undefined_never_cached.1 Unit Nat undefGraph "dependency" () [] undefFn 0
    (fun _ => rfl) rfl rfl

/-- C4: in both variants, `define` fails with the duplicate error when
the id is registered, and fails naming a missing declared dependency
when one is unregistered; in both cases the returned registry is the
input registry unchanged, so every previously defined node behaves as
before.  (Both failures are values of `define` itself, which runs
synchronously at definition time.) -/
theorem c4_define_failures :
    (∀ (P V : Type) (g : SGraph P V) (key : Key) (fn : P → RMap V → Option V)
      (deps? : Option (List Key)), (lookupNode g key).isSome →
      Fimbul.define g key fn deps? = (g, some (.duplicate key))) ∧
    (∀ (P V : Type) (g : SGraph P V) (key : Key) (fn : P → RMap V → Option V)
      (ds : List Key), lookupNode g key = none → (∃ d ∈ ds, lookupNode g d = none) →
      ∃ d ∈ ds, lookupNode g d = none ∧
        Fimbul.define g key fn (some ds) = (g, some (.depNotFound d))) ∧
    (∀ (P V : Type) (g : AGraph P V) (key : Key)
      (fn : P → RMap V → Except String (Option V)) (deps? : Option (List Key)),
      (lookupANode g key).isSome →
      FimbulAsync.define g key fn deps? = (g, some (.duplicate key))) ∧
    (∀ (P V : Type) (g : AGraph P V) (key : Key)
      (fn : P → RMap V → Except String (Option V)) (ds : List Key),
      lookupANode g key = none → (∃ d ∈ ds, lookupANode g d = none) →
      ∃ d ∈ ds, lookupANode g d = none ∧
        FimbulAsync.define g key fn (some ds) = (g, some (.depNotFound d))) := by
  refine ⟨?_, ?_, ?_, ?_⟩
  · intro P V g key fn deps? hk
    simp [Fimbul.define, hk]
  · intro P V g key fn ds hk ⟨d₀, hd₀, hnone₀⟩
    have hsome : (firstMissingS g ds).isSome :=
      firstMissing_isSome_of hd₀ (by rw [hnone₀]; rfl)
    rcases hm : firstMissingS g ds with _ | d
    · rw [hm] at hsome; simp at hsome
    · obtain ⟨hmem, hpres⟩ := firstMissing_eq_some hm
      refine ⟨d, hmem, Option.not_isSome_iff_eq_none.mp (by rw [hpres]; simp), ?_⟩
      simp [Fimbul.define, hk, hm]
  · intro P V g key fn deps? hk
    simp [FimbulAsync.define, hk]
  · intro P V g key fn ds hk ⟨d₀, hd₀, hnone₀⟩
    have hsome : (firstMissingA g ds).isSome :=
      firstMissing_isSome_of hd₀ (by rw [hnone₀]; rfl)
    rcases hm : firstMissingA g ds with _ | d
    · rw [hm] at hsome; simp at hsome
    · obtain ⟨hmem, hpres⟩ := firstMissing_eq_some hm
      refine ⟨d, hmem, Option.not_isSome_iff_eq_none.mp (by rw [hpres]; simp), ?_⟩
      simp [FimbulAsync.define, hk, hm]

/-- C4 witness: re-defining `dependency` fails with the duplicate error,
and declaring the unregistered `ghost` fails naming it, in both
variants, leaving the registries unchanged. -/
theorem c4_witness :
    Fimbul.define sharedGraph "dependency" depFn0 none =
      (sharedGraph, some (.duplicate "dependency")) ∧
    (∃ d ∈ ["ghost"], lookupNode sharedGraph d = none ∧
      Fimbul.define sharedGraph "extra" depFn0 (some ["ghost"]) =
        (sharedGraph, some (.depNotFound d))) ∧
    FimbulAsync.define asyncSharedGraph "dependency" aDepFn none =
      (asyncSharedGraph, some (.duplicate "dependency")) ∧
    (∃ d ∈ ["ghost"], lookupANode asyncSharedGraph d = none ∧
      FimbulAsync.define asyncSharedGraph "extra" aDepFn (some ["ghost"]) =
        (asyncSharedGraph, some (.depNotFound d))) :=
  ⟨c4_define_failures.1 Unit Nat sharedGraph "dependency" depFn0 none rfl,
   c4_define_failures.2.1 Unit Nat sharedGraph "extra" depFn0 ["ghost"] rfl
     ⟨"ghost", by decide, rfl⟩,
   c4_define_failures.2.2.1 Unit Nat asyncSharedGraph "dependency" aDepFn none rfl,
   c4_define_failures.2.2.2 Unit Nat asyncSharedGraph "extra" aDepFn ["ghost"] rfl
     ⟨"ghost", by decide, rfl⟩⟩

/-- C5 counterexample: an id that is unregistered and present in the
supplied cache with the value `undefined` — so it is not "present with a
defined value" — does not fail in the async variant: `resultsToPromises`
copies the present-but-`undefined` slot into the promise map, where
`resolveComputation`'s occupancy test treats it as a hit, and the call
resolves with `undefined` instead of rejecting. -/
theorem c5_counterexample :
    lookupANode ([] : AGraph Unit Nat) "doesNotExist" = none ∧
    definedAt [("doesNotExist", (none : Option Nat))] "doesNotExist" = none ∧
    (FimbulAsync.get 1 ([] : AGraph Unit Nat) "doesNotExist" ()
      [("doesNotExist", (none : Option Nat))]).out = .ok none :=
  ⟨rfl, rfl, rfl⟩

/-- C5 (amended): for every id that is neither registered nor present as
a key of the supplied cache, `get` fails with the not-found error in
both variants — thrown by the sync `get`, and the settled outcome of the
future returned by the async `get`, whose body only rejects — and the
supplied cache comes back unchanged with nothing invoked.  (As stated
the claim also covered ids present with an `undefined` value, where the
async variant resolves instead of failing — see the counterexample.) -/
theorem c5_amended_not_found :
    ∀ (P V : Type) (g : SGraph P V) (ag : AGraph P V) (fuel : Nat) (id : Key)
      (p : P) (c : RMap V), lookupNode g id = none → lookupANode ag id = none →
      lookupJ c id = none →
      Fimbul.get (fuel + 1) g id p c = ⟨.error (.notFound id), c, []⟩ ∧
      FimbulAsync.get (fuel + 1) ag id p c = ⟨.error (FimbulAsync.aNotFound id), c, []⟩ := by
  intro P V g ag fuel id p c hg hag hc
  have hd : definedAt c id = none := by simp [definedAt, hc]
  constructor
  · exact Fimbul.get_notFound hd hg fuel p
  · have hpm : lookupJ (FimbulAsync.resultsToPromises c) id = none := by
      rw [lookupJ_resultsToPromises, hc]
      rfl
    simp [FimbulAsync.get, hd, FimbulAsync.rc_notFound hpm hag fuel p]

/-- C5 witness: `get("doesNotExist", {})` over an empty cache fails with
the not-found error in both variants without touching the cache. -/
theorem c5_witness :
    Fimbul.get 1 sharedGraph "doesNotExist" () [] =
      ⟨.error (.notFound "doesNotExist"), [], []⟩ ∧
    FimbulAsync.get 1 asyncSharedGraph "doesNotExist" () [] =
      ⟨.error (FimbulAsync.aNotFound "doesNotExist"), [], []⟩ :=
  c5_amended_not_found Unit Nat sharedGraph asyncSharedGraph 0 "doesNotExist" () []
    rfl rfl rfl

/-- C6: the registered nodes of any registry built by a sequence of
`define` calls, in either variant, form an acyclic graph under the
edge "declared dependency → dependent" — enforced purely by the
registration-time rule that dependencies pre-exist — and in particular
a `define` declaring the defined key among its own dependencies always
fails. -/
theorem c6_acyclic_registries :
    (∀ (P V : Type) (calls : List (Key × (P → RMap V → Option V) × Option (List Key))),
      AcyclicSpec (specOfS (buildS calls))) ∧
    (∀ (P V : Type)
      (calls : List (Key × (P → RMap V → Except String (Option V)) × Option (List Key))),
      AcyclicSpec (specOfA (buildA calls))) ∧
    (∀ (P V : Type) (g : SGraph P V) (key : Key) (fn : P → RMap V → Option V)
      (ds : List Key), key ∈ ds → (Fimbul.define g key fn (some ds)).2.isSome) ∧
    (∀ (P V : Type) (g : AGraph P V) (key : Key)
      (fn : P → RMap V → Except String (Option V)) (ds : List Key), key ∈ ds →
      (FimbulAsync.define g key fn (some ds)).2.isSome) := by
  refine ⟨?_, ?_, ?_, ?_⟩
  · intro P V calls
    exact (WFS_buildS calls).acyclic
  · intro P V calls
    exact (WFA_buildA calls).acyclic
  · intro P V g key fn ds hmem
    by_cases hk : (lookupNode g key).isSome
    · simp [Fimbul.define, hk]
    · have hnone : lookupNode g key = none := Option.not_isSome_iff_eq_none.mp hk
      have hsome : (firstMissingS g ds).isSome :=
        firstMissing_isSome_of hmem (by rw [hnone]; rfl)
      rcases hm : firstMissingS g ds with _ | d
      · rw [hm] at hsome; simp at hsome
      · simp [Fimbul.define, hk, hm]
  · intro P V g key fn ds hmem
    by_cases hk : (lookupANode g key).isSome
    · simp [FimbulAsync.define, hk]
    · have hnone : lookupANode g key = none := Option.not_isSome_iff_eq_none.mp hk
      have hsome : (firstMissingA g ds).isSome :=
        firstMissing_isSome_of hmem (by rw [hnone]; rfl)
      rcases hm : firstMissingA g ds with _ | d
      · rw [hm] at hsome; simp at hsome
      · simp [FimbulAsync.define, hm, hk]

/-- C6 witness: the concrete build behind `sharedGraph` is acyclic at
`"dependency"`, and a self-dependent `define` fails in both variants. -/
theorem c6_witness :
    (¬ Relation.TransGen
      (specEdge (specOfS (buildS [("dependency", depFn0, none),
        ("child1", childFn1, some ["dependency"])])))
      "dependency" "dependency") ∧
    (Fimbul.define ([] : SGraph Unit Nat) "loop" depFn0 (some ["loop"])).2.isSome ∧
    (FimbulAsync.define ([] : AGraph Unit Nat) "loop" aDepFn (some ["loop"])).2.isSome :=
  ⟨c6_acyclic_registries.1 Unit Nat
      [("dependency", depFn0, none), ("child1", childFn1, some ["dependency"])] "dependency",
   c6_acyclic_registries.2.2.1 Unit Nat [] "loop" depFn0 ["loop"] (by decide),
   c6_acyclic_registries.2.2.2 Unit Nat [] "loop" aDepFn ["loop"] (by decide)⟩

/-- C1 counterexample: `dependency` is a declared dependency of both
`child1` and `child2`, yet `getMany(["child1", "child2"])` over one
shared cache invokes its function twice, not once — its computed value
is `undefined`, so the defined-slot cache test never treats it as
cached. -/
theorem c1_counterexample :
    lookupNode undefGraph "child1" = some (.withDeps childU1 ["dependency"]) ∧
    lookupNode undefGraph "child2" = some (.withDeps childU2 ["dependency"]) ∧
    ((Fimbul.getMany 3 undefGraph ["child1", "child2"] () []).calls).count "dependency" = 2 :=
  ⟨rfl, rfl, rfl⟩

/-- C1 (amended): in the sync variant, over a registry whose node
functions all return defined values, one `getMany(["c1","c2"])` over one
shared, initially empty results cache invokes the function of a node `d`
declared as dependency of both `c1` and `c2` exactly once; and for every
id whose cached value is defined — whatever the value, so in particular
the falsy `0`, `""` and `false` — `get` returns the identical cached
value, leaves the cache untouched and invokes nothing.  (As stated the
claim also covered nodes computing `undefined`, which are re-invoked —
see the counterexample and C10.) -/
theorem c1_amended_at_most_once :
    (∀ (P V : Type) (g : SGraph P V) (p : P) (c1k c2k d : Key)
      (fn1 fn2 : P → RMap V → Option V) (ds1 ds2 : List Key) (fuel : Nat),
      WFS g → TotalFns g →
      lookupNode g c1k = some (.withDeps fn1 ds1) → d ∈ ds1 →
      lookupNode g c2k = some (.withDeps fn2 ds2) → d ∈ ds2 →
      g.length ≤ fuel →
      ((Fimbul.getMany fuel g [c1k, c2k] p []).calls).count d = 1) ∧
    (∀ (P V : Type) (g : SGraph P V) (fuel : Nat) (id : Key) (p : P) (c : RMap V)
      (v : V), definedAt c id = some v →
      Fimbul.get fuel g id p c = ⟨.ok (some v), c, []⟩) := by
  constructor
  · intro P V g p c1k c2k d fn1 fn2 ds1 ds2 fuel w tot h1l hd1 h2l hd2 hfuel
    have hp := Fimbul.stepProps_get w tot p fuel
    have hrank : ∀ (k : Key) (n : SNode P V), lookupNode g k = some n →
        rankOf (specOfS g) k < fuel := by
      intro k n hk
      have ha : (lookupDeps (specOfS g) k).isSome := by
        rw [specOfS_lookup, hk]; rfl
      have hb := rankOf_lt_length ha
      have hc : (specOfS g).length = g.length := by simp [specOfS]
      omega
    rcases hs1 : Fimbul.get fuel g c1k p [] with ⟨res1, cache1, tr1⟩
    obtain ⟨v1, hv1⟩ : ∃ v, res1 = .ok v := by
      obtain ⟨v, hv⟩ := Fimbul.get_total w p fuel c1k (by rw [h1l]; rfl)
        (hrank _ _ h1l) []
      rw [hs1] at hv
      exact ⟨v, hv⟩
    subst hv1
    have hc1in : c1k ∈ tr1 := by
      have hslot := hp.okSlot c1k [] v1 (by rw [hs1])
      have hsome := hp.okSome c1k [] v1 (by rw [hs1])
      have h2 := hp.newCalled c1k [] c1k rfl (by
        rw [hs1] at hslot ⊢
        rw [hslot]
        exact hsome)
      rw [hs1] at h2
      exact h2
    have hdin : d ∈ tr1 := by
      have hdep := hp.callsDeps c1k [] c1k (by rw [hs1]; exact hc1in) _ h1l d hd1
      rw [hs1] at hdep
      have h2 := hp.newCalled c1k [] d rfl (by rw [hs1]; exact hdep)
      rw [hs1] at h2
      exact h2
    have hle : ((Fimbul.getMany fuel g [c1k, c2k] p []).calls).count d ≤ 1 :=
      hp.many_callsOnce [c1k, c2k] [] d
    have hmem : d ∈ (Fimbul.getMany fuel g [c1k, c2k] p []).calls := by
      show d ∈ (Fimbul.getManyAux (fun k c => Fimbul.get fuel g k p c) [c1k, c2k] []).calls
      rw [Fimbul.getManyAux_cons_ok hs1]
      exact List.mem_append.mpr (.inl hdin)
    have hge := List.count_pos_iff.mpr hmem
    omega
  · intro P V g fuel id p c v hv
    exact Fimbul.get_hit hv fuel p

/-- C1 witness: over `sharedGraph`, requesting both children invokes
`dependency` exactly once, and a `get` over a cache caching `0` for it
returns `0` without invoking anything. -/
theorem c1_witness :
    ((Fimbul.getMany 3 sharedGraph ["child1", "child2"] () []).calls).count "dependency" = 1 ∧
    Fimbul.get 3 sharedGraph "dependency" () [("dependency", some 0)] =
      ⟨.ok (some 0), [("dependency", some 0)], []⟩ :=
  ⟨c1_amended_at_most_once.1 Unit Nat sharedGraph () "child1" "child2" "dependency"
      childFn1 childFn2 ["dependency"] ["dependency"] 3 sharedGraph_wfs sharedGraph_total
      rfl (by decide) rfl (by decide) (by decide),
   c1_amended_at_most_once.2 Unit Nat sharedGraph 3 "dependency" ()
      [("dependency", some 0)] 0 rfl⟩

/-- C2 counterexample: in the async variant a successful
`get("a", input, results)` leaves the caller-supplied results object
without any value for `"a"`: `resultsToPromises` copies the caller's
entries into a fresh promise map and every write of the engine targets
that copy. -/
theorem c2_counterexample :
    (FimbulAsync.get 2 aOneGraph "a" () []).out = .ok (some 1) ∧
    (FimbulAsync.get 2 aOneGraph "a" () []).callerCache = [] ∧
    definedAt (FimbulAsync.get 2 aOneGraph "a" () []).callerCache "a" = none :=
  ⟨rfl, rfl, rfl⟩

/-- C2 (amended): in the sync variant the caller-supplied cache is the
object the engine mutates: after a `get(id, params, results)` that
returns, over a registry whose node functions return defined values,
`results` holds a defined value for `id`, for every node invoked during
the call, and for every declared dependency of every invoked node.  In
the async variant the caller-supplied cache is never mutated — the
engine works on the fresh promise map `resultsToPromises` builds, so the
caller's object after the call is the unchanged input.  (As stated the
claim asserted in-place mutation for both variants — see the
counterexample.) -/
theorem c2_amended_cache_population :
    (∀ (P V : Type) (g : SGraph P V) (fuel : Nat) (id : Key) (p : P) (c : RMap V),
      WFS g → TotalFns g →
      ∀ (res : Option V) (c' : RMap V) (tr : List Key),
        Fimbul.get fuel g id p c = ⟨.ok res, c', tr⟩ →
        (definedAt c' id).isSome ∧
        (∀ j ∈ tr, (definedAt c' j).isSome) ∧
        (∀ j ∈ tr, ∀ n, lookupNode g j = some n →
          ∀ d ∈ sDepsOf n, (definedAt c' d).isSome)) ∧
    (∀ (P V : Type) (g : AGraph P V) (fuel : Nat) (key : Key) (p : P)
      (results : RMap V),
      (FimbulAsync.get fuel g key p results).callerCache = results) := by
  constructor
  · intro P V g fuel id p c w tot res c' tr hget
    have hp := Fimbul.stepProps_get w tot p fuel
    refine ⟨?_, ?_, ?_⟩
    · have hslot := hp.okSlot id c res (by rw [hget])
      have hsome := hp.okSome id c res (by rw [hget])
      rw [hget] at hslot
      rw [hslot]
      exact hsome
    · intro j hj
      have h2 := hp.callsSome id c j (by rw [hget]; exact hj)
      rw [hget] at h2
      exact h2
    · intro j hj n hn d hd
      have h2 := hp.callsDeps id c j (by rw [hget]; exact hj) n hn d hd
      rw [hget] at h2
      exact h2
  · intro P V g fuel key p results
    rcases hd : definedAt results key with _ | v <;> simp [FimbulAsync.get, hd]

/-- C2 witness: after `get("child1")` over an empty cache on
`sharedGraph`, the cache defines `child1`, every invoked node, and the
declared dependency of every invoked node. -/
theorem c2_witness :
    (definedAt [("dependency", some 0), ("child1", some (1 : Nat))] "child1").isSome ∧
    (∀ j ∈ ["dependency", "child1"],
      (definedAt [("dependency", some 0), ("child1", some (1 : Nat))] j).isSome) ∧
    (∀ j ∈ ["dependency", "child1"], ∀ n, lookupNode sharedGraph j = some n →
      ∀ d ∈ sDepsOf n,
        (definedAt [("dependency", some 0), ("child1", some (1 : Nat))] d).isSome) :=
  c2_amended_cache_population.1 Unit Nat sharedGraph 3 "child1" () []
    sharedGraph_wfs sharedGraph_total (some 1)
    [("dependency", some 0), ("child1", some 1)] ["dependency", "child1"] rfl

/-- C3 counterexample: a node defined with no dependencies does not
receive an empty dependency-value map in the sync variant — it receives
the shared results object itself: its function here reads the unrelated
slot `"x"` from the map it is handed and `get` returns that slot's
cached value, while the same function applied to the empty map returns
`undefined`. -/
theorem c3_counterexample :
    lookupNode observeGraph "n" = some (.plain observeFn) ∧
    (Fimbul.get 1 observeGraph "n" () [("x", some 5)]).res = .ok (some 5) ∧
    observeFn () [] = none :=
  ⟨rfl, rfl, rfl⟩

/-- C3 (amended): what the second argument of a user function is.  Sync
variant: a node defined with a dependency list has its stored function
wrapped so that invocation first runs `getMany` over the declared list
on the shared results object and then calls the user function on the
object `getMany` returns — the shared results object itself, in which
(for total functions on a `define`-built registry) every declared
dependency is defined, but which may hold additional entries; a node
defined without a dependency list has its user function stored as-is and
receives the shared results object directly.  Async variant: the user
function receives a fresh map holding exactly the declared dependency
keys, in order, with their resolved values, built by
`resolveDependencies`.  (As stated the claim asserted an exact
dependency-value map for every node in both variants — see the
counterexample.) -/
theorem c3_amended_dependency_map :
    (∀ (P V : Type) (g : SGraph P V) (fuel : Nat) (key : Key) (p : P) (c : RMap V)
      (fn : P → RMap V → Option V) (ds : List Key), WFS g → TotalFns g →
      definedAt c key = none → lookupNode g key = some (.withDeps fn ds) →
      (Fimbul.getMany fuel g ds p c).res = .ok () →
      Fimbul.get (fuel + 1) g key p c =
        ⟨.ok (fn p (Fimbul.getMany fuel g ds p c).cache),
         assignJ (Fimbul.getMany fuel g ds p c).cache key
           (fn p (Fimbul.getMany fuel g ds p c).cache),
         (Fimbul.getMany fuel g ds p c).calls ++ [key]⟩ ∧
      ∀ d ∈ ds, (definedAt (Fimbul.getMany fuel g ds p c).cache d).isSome) ∧
    (∀ (P V : Type) (g : SGraph P V) (fuel : Nat) (key : Key) (p : P) (c : RMap V)
      (fn : P → RMap V → Option V),
      definedAt c key = none → lookupNode g key = some (.plain fn) →
      Fimbul.get (fuel + 1) g key p c = ⟨.ok (fn p c), assignJ c key (fn p c), [key]⟩) ∧
    (∀ (V : Type) (arc : Key → PMap V → FimbulAsync.AStep V) (ks : List Key)
      (pm : PMap V) (dm : RMap V),
      (FimbulAsync.resolveDependencies arc ks pm).out = .ok dm →
      dm.map Prod.fst = ks) ∧
    (∀ (P V : Type) (g : AGraph P V) (fuel : Nat) (key : Key) (p : P) (pm : PMap V)
      (nd : ANode P V) (dm : RMap V) (pm' : PMap V) (tr : List Key),
      lookupJ pm key = none → lookupANode g key = some nd →
      FimbulAsync.resolveDependencies
        (fun k pm => FimbulAsync.resolveComputation fuel g k p pm) nd.deps pm =
        ⟨.ok dm, pm', tr⟩ →
      FimbulAsync.resolveComputation (fuel + 1) g key p pm =
        ⟨nd.fn p dm, assignJ pm' key (nd.fn p dm), tr ++ [key]⟩) := by
  refine ⟨?_, ?_, ?_, ?_⟩
  · intro P V g fuel key p c fn ds w tot hd hl hok
    have hp := Fimbul.stepProps_get w tot p fuel
    constructor
    · rcases hm : Fimbul.getMany fuel g ds p c with ⟨mres, mc, mtr⟩
      have hres : mres = .ok () := by
        rw [hm] at hok
        exact hok
      subst hres
      exact Fimbul.get_withDeps_ok hd hl hm
    · intro d hdm
      exact hp.many_okDefined ds c hok d hdm
  · intro P V g fuel key p c fn hd hl
    exact Fimbul.get_plain hd hl fuel p
  · intro V arc ks pm dm h
    exact FimbulAsync.rd_keys ks pm dm h
  · intro P V g fuel key p pm nd dm pm' tr hpm hl hdm
    exact FimbulAsync.rc_node_ok hpm hl hdm

/-- C3 witness: on `sharedGraph`, `child1`'s wrapped function is applied
to the results object `getMany(["dependency"])` returns, in which
`dependency` is defined; and the async `resolveDependencies` map for
`child1`'s dependency list holds exactly `["dependency"]`. -/
theorem c3_witness :
    (Fimbul.get 3 sharedGraph "child1" () [] =
      ⟨.ok (childFn1 () (Fimbul.getMany 2 sharedGraph ["dependency"] () []).cache),
       assignJ (Fimbul.getMany 2 sharedGraph ["dependency"] () []).cache "child1"
         (childFn1 () (Fimbul.getMany 2 sharedGraph ["dependency"] () []).cache),
       (Fimbul.getMany 2 sharedGraph ["dependency"] () []).calls ++ ["child1"]⟩ ∧
      ∀ d ∈ ["dependency"],
        (definedAt (Fimbul.getMany 2 sharedGraph ["dependency"] () []).cache d).isSome) ∧
    ([("dependency", some (0 : Nat))].map Prod.fst = ["dependency"]) :=
  ⟨c3_amended_dependency_map.1 Unit Nat sharedGraph 2 "child1" () [] childFn1
      ["dependency"] sharedGraph_wfs sharedGraph_total rfl rfl rfl,
   c3_amended_dependency_map.2.2.1 Nat
      (fun k pm => FimbulAsync.resolveComputation 2 asyncSharedGraph k () pm)
      ["dependency"] (FimbulAsync.resultsToPromises []) [("dependency", some 0)] rfl⟩

/-- C9: in the async variant, one resolution call over one shared
promise cache invokes each node's function at most once, however many
paths of the call request the node: the in-flight promise occupies the
node's cache slot from the moment its computation starts, so any later
requester within the call finds the slot occupied and awaits the stored
promise — `resolveComputation` returns an occupied slot's promise as-is,
invoking nothing.  (The model settles the cooperative single-threaded
engine deterministically; slot writes all happen during the synchronous
prefix of the call that creates them, before any suspension point.) -/
theorem c9_async_at_most_once :
    (∀ (P V : Type) (g : AGraph P V), WFA g → ∀ (fuel : Nat) (keys : List Key)
      (p : P) (c : RMap V) (j : Key),
      ((FimbulAsync.getMany fuel g keys p c).calls).count j ≤ 1) ∧
    (∀ (P V : Type) (g : AGraph P V) (fuel : Nat) (k : Key) (p : P) (pm : PMap V)
      (out : Except String (Option V)), lookupJ pm k = some out →
      FimbulAsync.resolveComputation fuel g k p pm = ⟨out, pm, []⟩) := by
  constructor
  · intro P V g w fuel keys p c j
    exact (FimbulAsync.aStepProps_rc w p fuel).rd_once keys
      (FimbulAsync.resultsToPromises c) j
  · intro P V g fuel k p pm out h
    exact FimbulAsync.rc_hit h fuel p

/-- C9 witness: requesting both children of `asyncSharedGraph` together
invokes the shared `dependency` at most once — its trace is in fact
`["dependency", "child1", "child2"]` — and a pre-occupied slot is
returned as-is. -/
theorem c9_witness :
    ((FimbulAsync.getMany 3 asyncSharedGraph ["child1", "child2"] () []).calls).count
      "dependency" ≤ 1 ∧
    FimbulAsync.resolveComputation 3 asyncSharedGraph "dependency" ()
      [("dependency", .ok (some (7 : Nat)))] =
      ⟨.ok (some 7), [("dependency", .ok (some 7))], []⟩ :=
  ⟨c9_async_at_most_once.1 Unit Nat asyncSharedGraph asyncSharedGraph_wfa 3
      ["child1", "child2"] () [] "dependency",
   c9_async_at_most_once.2 Unit Nat asyncSharedGraph 3 "dependency" ()
      [("dependency", .ok (some 7))] (.ok (some 7)) rfl⟩

namespace FimbulAsync

variable {V : Type}

theorem rd_cons_err_head {arc : Key → PMap V → AStep V} {k : Key} {ks : List Key}
    {pm hpm : PMap V} {e : String} {htr : List Key}
    (hh : depSlot arc k pm = ⟨.error e, hpm, htr⟩) :
    resolveDependencies arc (k :: ks) pm =
      ⟨.error e, (resolveDependencies arc ks hpm).pcache,
        htr ++ (resolveDependencies arc ks hpm).calls⟩ := by
  rcases hr : (resolveDependencies arc ks hpm).out with e2 | vs <;>
    simp [resolveDependencies, hh, hr]

theorem rd_cons_ok_head_ok_rest {arc : Key → PMap V → AStep V} {k : Key} {ks : List Key}
    {pm hpm rpm : PMap V} {v : Option V} {vs : RMap V} {htr rtr : List Key}
    (hh : depSlot arc k pm = ⟨.ok v, hpm, htr⟩)
    (hr : resolveDependencies arc ks hpm = ⟨.ok vs, rpm, rtr⟩) :
    resolveDependencies arc (k :: ks) pm = ⟨.ok ((k, v) :: vs), rpm, htr ++ rtr⟩ := by
  simp [resolveDependencies, hh, hr]

theorem rd_cons_ok_head_err_rest {arc : Key → PMap V → AStep V} {k : Key} {ks : List Key}
    {pm hpm rpm : PMap V} {v : Option V} {e : String} {htr rtr : List Key}
    (hh : depSlot arc k pm = ⟨.ok v, hpm, htr⟩)
    (hr : resolveDependencies arc ks hpm = ⟨.error e, rpm, rtr⟩) :
    resolveDependencies arc (k :: ks) pm = ⟨.error e, rpm, htr ++ rtr⟩ := by
  simp [resolveDependencies, hh, hr]

end FimbulAsync

/-- The wrapping message with a nonempty underlying message, spelled
out. -/
theorem wrapFail_dep_eq {m : String} (hm : m ≠ "") :
    FimbulAsync.wrapFail "dep" m =
      "Failed to resolve dependencies for key \"dep\": Error: " ++ m := by
  simp only [FimbulAsync.wrapFail, FimbulAsync.errString, if_neg hm]
  rfl

/-- C7: in the async variant, when a dependency's computation rejects,
every node depending on it rejects with the wrapping error
`Failed to resolve dependencies for key "<dep>": Error: <message>`
naming its failing direct dependency; a dependent of a dependent rejects
with the wrap of the wrap, so the original message stays retrievable at
every level — here for a `dep` rejecting with any nonempty message `m`,
a `mid` depending on it, and a `top` depending on `mid`, whatever the
user functions of `mid` and `top` are. -/
theorem c7_failure_wrapping :
    ∀ (m : String) (midFn topFn : Unit → RMap Nat → Except String (Option Nat))
      (fuel : Nat), m ≠ "" →
      (FimbulAsync.get (fuel + 3) (failGraph m midFn topFn) "mid" () []).out =
        .error ("Failed to resolve dependencies for key \"dep\": Error: " ++ m) ∧
      (FimbulAsync.get (fuel + 3) (failGraph m midFn topFn) "top" () []).out =
        .error ("Failed to resolve dependencies for key \"mid\": Error: " ++
          ("Failed to resolve dependencies for key \"dep\": Error: " ++ m)) := by
  intro m midFn topFn fuel hm
  have h_dep : ∀ f : Nat,
      FimbulAsync.resolveComputation (f + 1) (failGraph m midFn topFn) "dep" () [] =
        ⟨.error m, [("dep", .error m)], ["dep"]⟩ := by
    intro f
    rw [FimbulAsync.rc_node_ok (by rfl) (by rfl) FimbulAsync.rd_nil]
    rfl
  have h_rd1 : ∀ f : Nat,
      FimbulAsync.resolveDependencies
        (fun k pm => FimbulAsync.resolveComputation (f + 1) (failGraph m midFn topFn) k () pm)
        ["dep"] [] =
        ⟨.error (FimbulAsync.wrapFail "dep" m),
         [("dep", .error (FimbulAsync.wrapFail "dep" m))], ["dep"]⟩ := by
    intro f
    rw [FimbulAsync.rd_cons_err_head (FimbulAsync.depSlot_miss_err (by rfl) (h_dep f))]
    rfl
  have h_mid : ∀ f : Nat,
      FimbulAsync.resolveComputation (f + 2) (failGraph m midFn topFn) "mid" () [] =
        ⟨.error (FimbulAsync.wrapFail "dep" m),
         [("dep", .error (FimbulAsync.wrapFail "dep" m)),
          ("mid", .error (FimbulAsync.wrapFail "dep" m))], ["dep"]⟩ := by
    intro f
    rw [FimbulAsync.rc_node_err (by rfl) (by rfl) (h_rd1 f)]
    rfl
  have h_rd2 : ∀ f : Nat,
      FimbulAsync.resolveDependencies
        (fun k pm => FimbulAsync.resolveComputation (f + 2) (failGraph m midFn topFn) k () pm)
        ["mid"] [] =
        ⟨.error (FimbulAsync.wrapFail "mid" (FimbulAsync.wrapFail "dep" m)),
         [("dep", .error (FimbulAsync.wrapFail "dep" m)),
          ("mid", .error (FimbulAsync.wrapFail "mid" (FimbulAsync.wrapFail "dep" m)))],
         ["dep"]⟩ := by
    intro f
    rw [FimbulAsync.rd_cons_err_head (FimbulAsync.depSlot_miss_err (by rfl) (h_mid f))]
    rfl
  have h_top :
      FimbulAsync.resolveComputation (fuel + 3) (failGraph m midFn topFn) "top" () [] =
        ⟨.error (FimbulAsync.wrapFail "mid" (FimbulAsync.wrapFail "dep" m)),
         [("dep", .error (FimbulAsync.wrapFail "dep" m)),
          ("mid", .error (FimbulAsync.wrapFail "mid" (FimbulAsync.wrapFail "dep" m))),
          ("top", .error (FimbulAsync.wrapFail "mid" (FimbulAsync.wrapFail "dep" m)))],
         ["dep"]⟩ := by
    rw [FimbulAsync.rc_node_err (by rfl) (by rfl) (h_rd2 (fuel + 1))]
    rfl
  have hne : FimbulAsync.wrapFail "dep" m ≠ "" := by
    rw [wrapFail_dep_eq hm]
    intro h
    have h2 := congrArg String.length h
    rw [String.length_append] at h2
    simp at h2
    exact absurd h2.1 (by decide)
  have hmid_eq : FimbulAsync.wrapFail "mid" (FimbulAsync.wrapFail "dep" m) =
      "Failed to resolve dependencies for key \"mid\": Error: " ++
        FimbulAsync.wrapFail "dep" m := by
    simp only [FimbulAsync.wrapFail, FimbulAsync.errString, if_neg hne]
    rfl
  constructor
  · have hg : (FimbulAsync.get (fuel + 3) (failGraph m midFn topFn) "mid" () []).out =
        (FimbulAsync.resolveComputation (fuel + 3) (failGraph m midFn topFn)
          "mid" () []).out := rfl
    rw [hg, h_mid (fuel + 1), wrapFail_dep_eq hm]
  · have hg : (FimbulAsync.get (fuel + 3) (failGraph m midFn topFn) "top" () []).out =
        (FimbulAsync.resolveComputation (fuel + 3) (failGraph m midFn topFn)
          "top" () []).out := rfl
    rw [hg, h_top, hmid_eq, wrapFail_dep_eq hm]

/-- C7 witness: with underlying message `"boom"`, `mid` rejects wrapping
`dep`'s failure and `top` rejects wrapping `mid`'s. -/
theorem c7_witness :
    (FimbulAsync.get 3 (failGraph "boom" aChild1 aChild2) "mid" () []).out =
      .error ("Failed to resolve dependencies for key \"dep\": Error: " ++ "boom") ∧
    (FimbulAsync.get 3 (failGraph "boom" aChild1 aChild2) "top" () []).out =
      .error ("Failed to resolve dependencies for key \"mid\": Error: " ++
        ("Failed to resolve dependencies for key \"dep\": Error: " ++ "boom")) :=
  c7_failure_wrapping "boom" aChild1 aChild2 0 (by decide)
